import Mathlib

/-!
File-based configuration provider (`pkg/collector/loader/file_provider.go`).

A shallow embedding of the Go package `loader`: the walk over the search
roots (`FileConfigProvider.Collect`, `collectDir`) and the parser of one
configuration file (`getCheckConfig`).

Conventions of the embedding

* A Go `string` and a Go `[]byte` are both written as a Lean `String`.  The
  only bytes the code inspects are `'.'`, `'/'` and `'\\'`, all ASCII, so on
  names that are valid UTF-8 counting code points or bytes gives the same
  slices.
* The operating system and the two libraries the code calls
  (`io/ioutil`, `gopkg.in/yaml.v2`) are the fields of a `World`; the code is
  a function of the world it runs in.  What is proved for every world holds
  whatever the file system, the decoder and the encoder do.
* How the yaml library decodes a parsed document into the struct
  `configFormat` is fixed by the Go types of the two fields; it is written
  out as `yamlUnmarshal`, and only the statements that speak of the
  document itself (a key that is absent, an entry that is not a mapping) are
  about worlds whose `Unmarshal` is that function.
* Log calls have no effect on the returned values and are left out.
* A slice expression `s[:n]` panics in Go when `n` is out of range; the
  embedding keeps that as `none`, so a result `some _` says that the run did
  not panic.
-/

namespace loader

/-! ## Values of the YAML library -/

/-- A YAML node, which is also the Go value the library stores into an
`interface{}`: `nil`, `bool`, `int`, `float64` (kept as its literal text),
`string`, `[]interface{}` and `map[interface{}]interface{}`.  A mapping is
the list of its bindings in document order. -/
inductive Value where
  | null
  | bool (b : Bool)
  | int (n : Int)
  | float (text : String)
  | str (s : String)
  | seq (items : List Value)
  | map (pairs : List (Value × Value))

/-- The Go type `check.ConfigRawMap`, the element type of the field
`Instances`.  Its declaration is in package `check`, next to `check.Config`;
it is the map type its name states, `map[interface{}]interface{}`, written
here as the bindings of the map (the `nil` map and the empty map are both
`[]`). -/
abbrev ConfigRawMap := List (Value × Value)

/-- Byte slices (`[]byte`, `check.ConfigData`). -/
abbrev Bytes := String

/-- The struct `configFormat`, the target of `yaml.Unmarshal`.  The zero value
has a `nil` interface in `InitConfig` and a `nil` slice in `Instances`. -/
structure configFormat where
  InitConfig : Value
  Instances : List ConfigRawMap

/-- The zero value `configFormat{}`. -/
def configFormat.zero : configFormat := ⟨Value.null, []⟩

/-- A Go `error` value that is not `nil`: made by `errors.New` in this
package, or returned by `io/ioutil` or by the yaml package.  A
`*yaml.TypeError` is kept apart from the other errors of the yaml package;
it holds the texts of the type errors the decoder recorded. -/
inductive GoError where
  | errorString (s : String)
  | ioutil (detail : String)
  | yaml (detail : String)
  | typeError (errors : List String)
deriving DecidableEq

/-- The method `Error()` of an error value. -/
def GoError.Error : GoError → String
  | .errorString s => s
  | .ioutil d => d
  | .yaml d => d
  | .typeError errors => "yaml: unmarshal errors:\n  " ++ "\n  ".intercalate errors

/-- The struct `check.Config`, as far as this package fills it. -/
structure check.Config where
  Name : String
  Instances : List Bytes
  InitConfig : Bytes
deriving DecidableEq

/-- What `os.FileInfo` offers to this package: `Name()` and `IsDir()`. -/
structure FileInfo where
  Name : String
  IsDir : Bool
deriving DecidableEq

/-- The environment of a run: the platform, the file system as seen through
`ioutil.ReadDir` and `ioutil.ReadFile`, `filepath.Join`, and the yaml codec.
`Marshal` is the first result of `yaml.Marshal`; the code drops the second. -/
structure World where
  windows : Bool
  ReadDir : String → Except GoError (List FileInfo)
  ReadFile : String → Except GoError Bytes
  Join : String → String → String
  Unmarshal : Bytes → Except GoError configFormat
  Marshal : Value → Bytes

/-! ## `path/filepath` -/

/-- The function `os.IsPathSeparator`: `'/'`, and on Windows also `'\\'`. -/
def IsPathSeparator (windows : Bool) (c : Char) : Bool :=
  c == '/' || (windows && c == '\\')

/-- The loop of `filepath.Ext`, `for i := len(path)-1; i >= 0 &&
!os.IsPathSeparator(path[i]); i--`: `todo` holds `path[i], path[i-1], …,
path[0]` and `seen` holds `path[i+1:]`. -/
def Ext.loop (windows : Bool) : List Char → List Char → List Char
  | [], _ => []
  | c :: todo, seen =>
    if IsPathSeparator windows c then []
    else if c = '.' then c :: seen
    else Ext.loop windows todo (c :: seen)

/-- The function `filepath.Ext`: the suffix beginning at the final dot of the
final element of `path`, empty if there is no dot. -/
def Ext (windows : Bool) (path : String) : String :=
  ⟨Ext.loop windows path.data.reverse []⟩

/-- The slice expression `s[:hi]`; `none` is the run-time panic for an index
out of range. -/
def sliceTo (s : String) (hi : Int) : Option String :=
  if 0 ≤ hi ∧ hi ≤ (s.length : Int) then some ⟨s.data.take hi.toNat⟩ else none

/-! ## The package -/

/-- The loop `for _, instance := range cf.Instances` of `getCheckConfig`, on
`config.Instances`. -/
def getCheckConfig.loop (w : World) : List ConfigRawMap → List Bytes → List Bytes
  | [], instances => instances
  | inst :: rest, instances =>
    let rawConf := w.Marshal (Value.map inst)
    getCheckConfig.loop w rest (instances ++ [rawConf])

/-- The function `getCheckConfig`.  Its callers use the returned config only
when the error is `nil`, so a failing return is the error alone. -/
def getCheckConfig (w : World) (name fpath : String) : Except GoError check.Config :=
  match w.ReadFile fpath with
  | .error err => .error err
  | .ok yamlFile =>
    match w.Unmarshal yamlFile with
    | .error err => .error err
    | .ok cf =>
      if cf.Instances.length < 1 then
        .error (GoError.errorString "Configuration file contains no valid instances")
      else
        let rawInitConfig := w.Marshal cf.InitConfig
        .ok { Name := name
              InitConfig := rawInitConfig
              Instances := getCheckConfig.loop w cf.Instances [] }

/-- The loop `for _, sEntry := range subEntries` of `collectDir`. -/
def collectDir.loop (w : World) (dirPath checkName : String) :
    List FileInfo → List check.Config → List check.Config
  | [], configs => configs
  | sEntry :: rest, configs =>
    if !sEntry.IsDir then
      let filePath := w.Join dirPath sEntry.Name
      match getCheckConfig w checkName filePath with
      | .error _ => collectDir.loop w dirPath checkName rest configs
      | .ok conf => collectDir.loop w dirPath checkName rest (configs ++ [conf])
    else collectDir.loop w dirPath checkName rest configs

/-- The function `collectDir`. -/
def collectDir (w : World) (parentPath : String) (folder : FileInfo) :
    Option (List check.Config) :=
  if Ext w.windows folder.Name ≠ ".d" then some []
  else
    let dirPath := w.Join parentPath folder.Name
    match w.ReadDir dirPath with
    | .error _ => some []
    | .ok subEntries =>
      match sliceTo folder.Name ((folder.Name.length : Int) - 2) with
      | none => none
      | some checkName => some (collectDir.loop w dirPath checkName subEntries [])

/-- The provider: the search roots given at construction. -/
structure FileConfigProvider where
  paths : List String

/-- The constructor `NewFileConfigProvider`. -/
def NewFileConfigProvider (paths : List String) : FileConfigProvider := ⟨paths⟩

/-- The inner loop of `Collect`, `for _, entry := range entries`. -/
def Collect.entries (w : World) (path : String) :
    List FileInfo → List check.Config → Option (List check.Config)
  | [], configs => some configs
  | entry :: rest, configs =>
    let ext := Ext w.windows entry.Name
    if ext = ".example" then Collect.entries w path rest configs
    else if entry.IsDir then
      match collectDir w path entry with
      | none => none
      | some found => Collect.entries w path rest (configs ++ found)
    else
      match sliceTo entry.Name ((entry.Name.length : Int) - (ext.length : Int)) with
      | none => none
      | some checkName =>
        match getCheckConfig w checkName (w.Join path entry.Name) with
        | .error _ => Collect.entries w path rest configs
        | .ok conf => Collect.entries w path rest (configs ++ [conf])

/-- The outer loop of `Collect`, `for _, path := range c.paths`. -/
def Collect.roots (w : World) : List String → List check.Config → Option (List check.Config)
  | [], configs => some configs
  | path :: rest, configs =>
    match w.ReadDir path with
    | .error _ => Collect.roots w rest configs
    | .ok entries =>
      match Collect.entries w path entries configs with
      | none => none
      | some configs => Collect.roots w rest configs

/-- The method `Collect`: the configs and the error it returns, `none` for a
`nil` error. -/
def FileConfigProvider.Collect (w : World) (c : FileConfigProvider) :
    Option (List check.Config × Option GoError) :=
  match Collect.roots w c.paths [] with
  | none => none
  | some configs => some (configs, none)

/-! ## The decoder of `gopkg.in/yaml.v2` on `configFormat`

`yaml.Unmarshal(data, &cf)` parses `data` into a node tree and decodes the
tree into the Go value it was given.  The parser is left to the world; the
decoding into a `configFormat` is fixed by the Go types of its two fields and
is written out here, for documents without anchors, aliases, merge keys and
explicit tags.  The decoder keeps of a node it refuses the short tag of the
node and the Go type it was to fill; the texts of the errors, which also
print the line and the scalar, are left to the world. -/

/-- The short tag the library prints for a node. -/
def Value.tag : Value → String
  | .null => "!!null"
  | .bool _ => "!!bool"
  | .int _ => "!!int"
  | .float _ => "!!float"
  | .str _ => "!!str"
  | .seq _ => "!!seq"
  | .map _ => "!!map"

/-- Whether a decoded key can index a Go map: the decoder stops with
`invalid map key` on a slice or a map. -/
def Value.isMapKey : Value → Bool
  | .seq _ => false
  | .map _ => false
  | _ => true

mutual
/-- Decoding a node into an `interface{}` goes through unless a mapping
inside it has a sequence or a mapping as a key. -/
def Value.decodes : Value → Bool
  | .seq items => Value.decodesAll items
  | .map pairs => Value.decodesPairs pairs
  | _ => true
/-- The elements of a sequence all decode. -/
def Value.decodesAll : List Value → Bool
  | [] => true
  | v :: rest => v.decodes && Value.decodesAll rest
/-- The bindings of a mapping all decode into a `map[interface{}]interface{}`. -/
def Value.decodesPairs : List (Value × Value) → Bool
  | [] => true
  | (k, v) :: rest => k.decodes && k.isMapKey && v.decodes && Value.decodesPairs rest
end

/-- A type error as the decoder records it in `d.terrors`: the short tag of
the node and the Go type the node does not fit. -/
abbrev Refusal := String × String

/-- The outcome of `d.unmarshal(n, out)`: it returned `true`; it recorded a
type error in `d.terrors` and returned `false`; or it stopped the whole
decoding on an invalid map key (`failf`). -/
inductive Decoded (α : Type) where
  | good (a : α)
  | terror (refused : Refusal)
  | fail

/-- Decoding of one node into a `check.ConfigRawMap`: a null gives the `nil`
map, a mapping gives its bindings, any other node is a type error. -/
def unmarshalRawMap : Value → Decoded ConfigRawMap
  | .null => .good []
  | .map pairs => if Value.decodesPairs pairs then .good pairs else .fail
  | v => .terror (v.tag, "check.ConfigRawMap")

/-- The loop of `d.sequence` into a `[]check.ConfigRawMap`: an element that
decodes is kept, one that does not leaves its type error behind; `none` when
the decoding stops. -/
def unmarshalInstances.loop :
    List Value → List ConfigRawMap → List Refusal → Option (List ConfigRawMap × List Refusal)
  | [], out, terrors => some (out, terrors)
  | n :: rest, out, terrors =>
    match unmarshalRawMap n with
    | .good e => unmarshalInstances.loop rest (out ++ [e]) terrors
    | .terror refused => unmarshalInstances.loop rest out (terrors ++ [refused])
    | .fail => none

/-- Decoding of the value of the key `instances` into the field `Instances`. -/
def unmarshalInstances (n : Value) (cf : configFormat) (terrors : List Refusal) :
    Option (configFormat × List Refusal) :=
  match n with
  | .null => some (⟨cf.InitConfig, []⟩, terrors)
  | .seq items =>
    match unmarshalInstances.loop items [] terrors with
    | none => none
    | some (out, terrors) => some (⟨cf.InitConfig, out⟩, terrors)
  | v => some (cf, terrors ++ [(v.tag, "[]check.ConfigRawMap")])

/-- Decoding of the value of the key `init_config` into the field
`InitConfig`, an `interface{}`. -/
def unmarshalInitConfig (n : Value) (cf : configFormat) (terrors : List Refusal) :
    Option (configFormat × List Refusal) :=
  if n.decodes then some (⟨n, cf.Instances⟩, terrors) else none

/-- The loop of `d.mappingStruct` on a `configFormat`.  A key is decoded into
a string and looked up among the fields, `init_config` (from the tag) and
`instances` (the field name in lower case); a key that is no field is passed
over, and so is its value.  The text of a null, boolean or numeric scalar is
never one of the two names. -/
def mappingStruct : List (Value × Value) → configFormat → List Refusal →
    Option (configFormat × List Refusal)
  | [], cf, terrors => some (cf, terrors)
  | (k, v) :: rest, cf, terrors =>
    match k with
    | .seq _ => mappingStruct rest cf (terrors ++ [("!!seq", "string")])
    | .map _ => mappingStruct rest cf (terrors ++ [("!!map", "string")])
    | .str name =>
      if name = "init_config" then
        match unmarshalInitConfig v cf terrors with
        | none => none
        | some (cf, terrors) => mappingStruct rest cf terrors
      else if name = "instances" then
        match unmarshalInstances v cf terrors with
        | none => none
        | some (cf, terrors) => mappingStruct rest cf terrors
      else mappingStruct rest cf terrors
    | _ => mappingStruct rest cf terrors

/-- Decoding of a parsed document into a zero `configFormat`: the struct and
the type errors recorded, or `none` when the decoding stops on an invalid map
key.  The empty document is `Value.null`. -/
def unmarshalDocument (doc : Value) : Option (configFormat × List Refusal) :=
  match doc with
  | .null => some (configFormat.zero, [])
  | .map pairs => mappingStruct pairs configFormat.zero []
  | v => some (configFormat.zero, [(v.tag, "loader.configFormat")])

/-- The nodes that decode into a `check.ConfigRawMap` without a type error:
a null and a mapping. -/
def Value.isRawMap : Value → Bool
  | .null => true
  | .map _ => true
  | _ => false

/-- The bindings of a node that is a mapping, none for any other node. -/
def Value.rawMap : Value → ConfigRawMap
  | .map pairs => pairs
  | _ => []

/-- The texts of the errors of the decoder, which the library makes from the
lines and scalars of the input: the entries of `TypeError.Errors`, and the
text of the error on an invalid map key. -/
structure DecoderTexts where
  terrors : Bytes → List String
  invalidMapKey : Bytes → String

/-- The function `yaml.Unmarshal` on a `*configFormat`, given the parser of
the library and the texts of its errors.  The recorded type errors are
reported at the end as one `*yaml.TypeError`. -/
def yamlUnmarshal (parse : Bytes → Except GoError Value) (texts : DecoderTexts)
    (data : Bytes) : Except GoError configFormat :=
  match parse data with
  | .error err => .error err
  | .ok doc =>
    match unmarshalDocument doc with
    | none => .error (GoError.yaml (texts.invalidMapKey data))
    | some (cf, []) => .ok cf
    | some (_, _ :: _) => .error (GoError.typeError (texts.terrors data))

/-! ## The words of the specification -/

/-- The test `strings.HasSuffix(s, suffix)`: `s` ends in `suffix`. -/
def hasSuffix (s suffix : String) : Bool :=
  suffix.data.isSuffixOf s.data

/-- What one call of the parser adds to the output: the config when it
succeeds, nothing when it fails. -/
def parsed : Except GoError check.Config → List check.Config
  | .ok conf => [conf]
  | .error _ => []

/-- The top-level entries the walker ignores, in the words of the
specification: a name ending in `.example`, or a directory whose name does
not end in `.d`. -/
def ignoredAtTop (e : FileInfo) : Bool :=
  hasSuffix e.Name ".example" || (e.IsDir && !hasSuffix e.Name ".d")

/-- What the specification lets the override directory `X.d` of the root `R`
contribute: `parse(X, R/X.d/S)` for every child `S` that is not a directory
and on which the parser succeeds, in listing order; nothing when `X.d`
cannot be listed. -/
def overrideConfigs (w : World) (R X : String) : List check.Config :=
  match w.ReadDir (w.Join R (X ++ ".d")) with
  | .error _ => []
  | .ok children =>
    children.filterMap fun S =>
      if S.IsDir then none
      else (getCheckConfig w X (w.Join (w.Join R (X ++ ".d")) S.Name)).toOption

mutual
/-- A document with plain keys: every key of every mapping inside it is a
scalar, and none is the merge key `<<`, which the library expands into the
bindings of its value and which the decoder written here takes for a key
like any other. -/
def Value.plainKeys : Value → Bool
  | .seq items => Value.plainKeysAll items
  | .map pairs => Value.plainKeysPairs pairs
  | _ => true
/-- The elements of a sequence all have plain keys. -/
def Value.plainKeysAll : List Value → Bool
  | [] => true
  | v :: rest => v.plainKeys && Value.plainKeysAll rest
/-- The bindings of a mapping have plain keys. -/
def Value.plainKeysPairs : List (Value × Value) → Bool
  | [] => true
  | (k, v) :: rest =>
    (match k with
      | .seq _ => false
      | .map _ => false
      | .str name => name != "<<"
      | _ => true) && v.plainKeys && Value.plainKeysPairs rest
end

/-! ## A sample world -/

/-- A file with a null `init_config` and one instance, `host: h1`. -/
def sampleFileA : Bytes := "init_config:\ninstances:\n  - host: h1\n"

/-- A file without `init_config` and with one instance, `host: h2`. -/
def sampleFileB : Bytes := "instances:\n  - host: h2\n"

/-- A file with a mapping as `init_config` and two instances: a mapping of
two keys and a null. -/
def sampleFileC : Bytes :=
  "init_config:\n  tag: t1\ninstances:\n  - host: h3\n    name: r1\n  - ~\n"

/-- The listings of the sample file system, each sorted by name as
`ioutil.ReadDir` returns them. -/
def sampleReadDir (path : String) : Except GoError (List FileInfo) :=
  if path = "/etc/dd" then
    .ok [⟨"LICENSE", false⟩, ⟨"broken.yaml", false⟩, ⟨"cpu.yaml", false⟩,
         ⟨"disk.yaml.example", false⟩, ⟨"empty.yaml", false⟩, ⟨"five.yaml", false⟩,
         ⟨"foo.d.example", true⟩, ⟨"nginx.d", true⟩, ⟨"notes", true⟩]
  else if path = "/etc/dd/nginx.d" then
    .ok [⟨"a.yaml", false⟩, ⟨"b.yaml.example", false⟩, ⟨"sub", true⟩]
  else if path = "/etc/dd/nginx.d/sub" then .ok [⟨"c.yaml", false⟩]
  else if path = "/etc/dd/notes" then .ok [⟨"n.yaml", false⟩]
  else if path = "/etc/dd/foo.d.example" then .ok [⟨"f.yaml", false⟩]
  else if path = "/opt/dd" then .ok [⟨"cpu.yaml", false⟩]
  else if path = "/srv/dd" then .ok [⟨"a.yaml.yaml", false⟩, ⟨"x.d.d", true⟩]
  else if path = "/srv/dd/x.d.d" then .ok [⟨"x.yaml", false⟩]
  else if path = "/var/dd" then .ok [⟨"redis.yaml", false⟩]
  else .error (GoError.ioutil ("open " ++ path ++ ": no such file or directory"))

/-- The contents of the files of the sample file system. -/
def sampleReadFile (path : String) : Except GoError Bytes :=
  if path = "/etc/dd/LICENSE" then .ok "Apache"
  else if path = "/etc/dd/broken.yaml" then .ok "not: [valid"
  else if path = "/etc/dd/cpu.yaml" then .ok sampleFileA
  else if path = "/etc/dd/disk.yaml.example" then .ok sampleFileA
  else if path = "/etc/dd/empty.yaml" then .ok "instances: []"
  else if path = "/etc/dd/five.yaml" then .ok "instances: [5]"
  else if path = "/etc/dd/nginx.d/a.yaml" then .ok sampleFileA
  else if path = "/etc/dd/nginx.d/b.yaml.example" then .ok sampleFileB
  else if path = "/etc/dd/nginx.d/sub/c.yaml" then .ok sampleFileA
  else if path = "/etc/dd/notes/n.yaml" then .ok sampleFileA
  else if path = "/etc/dd/foo.d.example/f.yaml" then .ok sampleFileA
  else if path = "/opt/dd/cpu.yaml" then .ok sampleFileB
  else if path = "/srv/dd/a.yaml.yaml" then .ok sampleFileA
  else if path = "/srv/dd/x.d.d/x.yaml" then .ok sampleFileB
  else if path = "/var/dd/redis.yaml" then .ok sampleFileC
  else .error (GoError.ioutil ("open " ++ path ++ ": no such file or directory"))

/-- The parser of the library on the contents of the sample files. -/
def sampleParse (data : Bytes) : Except GoError Value :=
  if data = sampleFileA then
    .ok (.map [(.str "init_config", .null),
               (.str "instances", .seq [.map [(.str "host", .str "h1")]])])
  else if data = sampleFileB then
    .ok (.map [(.str "instances", .seq [.map [(.str "host", .str "h2")]])])
  else if data = "instances: []" then .ok (.map [(.str "instances", .seq [])])
  else if data = "instances: [5]" then .ok (.map [(.str "instances", .seq [.int 5])])
  else if data = "Apache" then .ok (.str "Apache")
  else if data = sampleFileC then
    .ok (.map [(.str "init_config", .map [(.str "tag", .str "t1")]),
               (.str "instances",
                .seq [.map [(.str "host", .str "h3"), (.str "name", .str "r1")], .null])])
  else .error (GoError.yaml "yaml: line 1: did not find expected \x27,\x27 or \x27]\x27")

/-- The encoder of the library on the values the sample files hold. -/
def sampleMarshal : Value → Bytes
  | .null => "null\n"
  | .map [] => "\x7b\x7d\n"
  | .map [(.str k, .str v)] => k ++ ": " ++ v ++ "\n"
  | .map [(.str k, .str v), (.str k2, .str v2)] =>
    k ++ ": " ++ v ++ "\n" ++ k2 ++ ": " ++ v2 ++ "\n"
  | _ => ""

/-- The texts of the decoder errors on the sample files: two of them leave a
type error, none has an invalid map key. -/
def sampleTexts : DecoderTexts where
  terrors := fun data =>
    if data = "instances: [5]" then
      ["line 1: cannot unmarshal !!int `5` into check.ConfigRawMap"]
    else if data = "Apache" then
      ["line 1: cannot unmarshal !!str `Apache` into loader.configFormat"]
    else []
  invalidMapKey := fun _ => ""

/-- The sample world: a Unix file system with four search roots, `/etc/dd`,
`/opt/dd`, `/srv/dd` and `/var/dd`. -/
def sampleWorld : World where
  windows := false
  ReadDir := sampleReadDir
  ReadFile := sampleReadFile
  Join := fun dir name => dir ++ "/" ++ name
  Unmarshal := yamlUnmarshal sampleParse sampleTexts
  Marshal := sampleMarshal

/-- The check name the walker gives a top-level file, in the words of the
specification: the name without its final extension. -/
def checkNameOf (w : World) (name : String) : String :=
  ⟨name.data.take (name.data.length - (Ext w.windows name).data.length)⟩

/-- The name of an override directory without its last two characters. -/
def dropDotD (name : String) : String :=
  ⟨name.data.take (name.data.length - 2)⟩

/-- What one top-level entry `e` of the root `R` contributes, in the words of
the specification (section 4.1). -/
def entryConfigs (w : World) (R : String) (e : FileInfo) : List check.Config :=
  if ignoredAtTop e then []
  else if e.IsDir then overrideConfigs w R (dropDotD e.Name)
  else parsed (getCheckConfig w (checkNameOf w e.Name) (w.Join R e.Name))

/-- What one root contributes: nothing when it cannot be listed, else what
its entries contribute, in listing order. -/
def rootConfigs (w : World) (R : String) : List check.Config :=
  match w.ReadDir R with
  | .error _ => []
  | .ok entries => entries.flatMap (entryConfigs w R)

/-- The world `w` with another view of the directories. -/
def World.withReadDir (w : World) (readDir : String → Except GoError (List FileInfo)) : World :=
  ⟨w.windows, readDir, w.ReadFile, w.Join, w.Unmarshal, w.Marshal⟩

/-- The listing of a root without the entries the walker ignores. -/
def pruned (entries : List FileInfo) : List FileInfo :=
  entries.filter (fun e => !ignoredAtTop e)

/-- The world `w` after the ignored entries are removed from the listing of
every root in `roots`; every other directory lists what it did. -/
def World.pruneRoots (w : World) (roots : List String) : World :=
  w.withReadDir fun path =>
    if path ∈ roots then (w.ReadDir path).map pruned else w.ReadDir path

/-- The values of a key `instances` that decode without a type error: a
null, or a sequence of nulls and mappings. -/
def instancesFit (v : Value) : Prop :=
  v = Value.null ∨ ∃ items, v = Value.seq items ∧ ∀ x ∈ items, x.isRawMap = true

/-! ## `filepath.Ext` and the slices -/

theorem Ext.loop_is_suffix (win : Bool) (todo : List Char) :
    ∀ seen : List Char, ∃ pre, todo.reverse ++ seen = pre ++ Ext.loop win todo seen := by
  induction todo with
  | nil => intro seen; exact ⟨seen, by simp [Ext.loop]⟩
  | cons c todo ih =>
    intro seen
    unfold Ext.loop
    split
    · exact ⟨(c :: todo).reverse ++ seen, by simp⟩
    · split
      · exact ⟨todo.reverse, by simp⟩
      · obtain ⟨pre, hpre⟩ := ih (c :: seen)
        exact ⟨pre, by rw [← hpre]; simp⟩

theorem Ext_is_suffix (win : Bool) (name : String) :
    ∃ pre : List Char, name.data = pre ++ (Ext win name).data := by
  obtain ⟨pre, hpre⟩ := Ext.loop_is_suffix win name.data.reverse []
  exact ⟨pre, by simpa [Ext] using hpre⟩

theorem Ext.loop_stops_at_dot (win : Bool) (r : List Char)
    (hr : ∀ c ∈ r, IsPathSeparator win c = false ∧ c ≠ '.') :
    ∀ todo seen : List Char,
      Ext.loop win (r ++ '.' :: todo) seen = '.' :: (r.reverse ++ seen) := by
  induction r with
  | nil =>
    intro todo seen
    have hsep : IsPathSeparator win '.' = false := by cases win <;> decide
    simp [Ext.loop, hsep]
  | cons c r ih =>
    intro todo seen
    have hc := hr c (List.mem_cons_self _ _)
    have ih' := ih (fun d hd => hr d (List.mem_cons_of_mem _ hd)) todo (c :: seen)
    simp [Ext.loop, hc.1, hc.2, ih']

theorem Ext.loop_without_dot (win : Bool) (todo : List Char) (h : '.' ∉ todo) :
    ∀ seen : List Char, Ext.loop win todo seen = [] := by
  induction todo with
  | nil => intro seen; rfl
  | cons c todo ih =>
    intro seen
    have hc : c ≠ '.' := fun e => h (by simp [e])
    have ht : '.' ∉ todo := fun e => h (List.mem_cons_of_mem _ e)
    unfold Ext.loop
    split
    · rfl
    · simp [hc, ih ht]

/-- The extension of `pre ++ "." ++ post` is `"." ++ post` when `post` holds no
dot and no separator. -/
theorem Ext_of_last_dot (win : Bool) (pre post : List Char)
    (hpost : ∀ c ∈ post, IsPathSeparator win c = false ∧ c ≠ '.') :
    Ext win ⟨pre ++ '.' :: post⟩ = ⟨'.' :: post⟩ := by
  have h := Ext.loop_stops_at_dot win post.reverse
    (fun c hc => hpost c (List.mem_reverse.mp hc)) pre.reverse []
  simp only [Ext, List.reverse_append, List.reverse_cons, List.append_assoc,
    List.singleton_append, List.reverse_reverse, List.append_nil] at h ⊢
  rw [h]

theorem hasSuffix_iff (s suffix : String) :
    hasSuffix s suffix = true ↔ ∃ pre : List Char, s.data = pre ++ suffix.data := by
  unfold hasSuffix
  rw [List.isSuffixOf_iff_suffix]
  constructor
  · rintro ⟨pre, h⟩; exact ⟨pre, h.symm⟩
  · rintro ⟨pre, h⟩; exact ⟨pre, h.symm⟩

/-- The test `filepath.Ext(name) == ".example"` is the test "`name` ends in
`.example`". -/
theorem Ext_eq_example_iff (win : Bool) (name : String) :
    Ext win name = ".example" ↔ hasSuffix name ".example" = true := by
  rw [hasSuffix_iff]
  constructor
  · intro h
    obtain ⟨pre, hpre⟩ := Ext_is_suffix win name
    exact ⟨pre, by rw [h] at hpre; exact hpre⟩
  · rintro ⟨pre, hpre⟩
    have h := Ext_of_last_dot win pre ['e', 'x', 'a', 'm', 'p', 'l', 'e']
      (by cases win <;> decide)
    have hname : name = ⟨pre ++ '.' :: ['e', 'x', 'a', 'm', 'p', 'l', 'e']⟩ :=
      String.ext (by rw [hpre])
    rw [hname, h]

/-- The test `filepath.Ext(name) != ".d"` fails exactly when `name` ends in
`.d`. -/
theorem Ext_eq_d_iff (win : Bool) (name : String) :
    Ext win name = ".d" ↔ hasSuffix name ".d" = true := by
  rw [hasSuffix_iff]
  constructor
  · intro h
    obtain ⟨pre, hpre⟩ := Ext_is_suffix win name
    exact ⟨pre, by rw [h] at hpre; exact hpre⟩
  · rintro ⟨pre, hpre⟩
    have h := Ext_of_last_dot win pre ['d']
      (by cases win <;> decide)
    have hname : name = ⟨pre ++ '.' :: ['d']⟩ := String.ext (by rw [hpre])
    rw [hname, h]

theorem sliceTo_of_append (s : String) (pre suf : List Char) (h : s.data = pre ++ suf) :
    sliceTo s ((s.length : Int) - (suf.length : Int)) = some ⟨pre⟩ := by
  have hlen : s.length = pre.length + suf.length := by
    show s.data.length = _
    rw [h, List.length_append]
  have e : ((s.length : Int) - (suf.length : Int)) = (pre.length : Int) := by
    rw [hlen]; push_cast; ring
  unfold sliceTo
  rw [e]
  have hcond : (0 : Int) ≤ (pre.length : Int) ∧ (pre.length : Int) ≤ (s.length : Int) := by
    constructor
    · exact Int.natCast_nonneg _
    · rw [hlen]; push_cast; omega
  rw [if_pos hcond]
  simp [h]

/-- The slice of `Collect` never panics: it is the name without its
extension, and the extension put back gives the name. -/
theorem sliceTo_checkName (w : World) (name : String) :
    sliceTo name ((name.length : Int) - ((Ext w.windows name).length : Int))
        = some (checkNameOf w name)
      ∧ checkNameOf w name ++ Ext w.windows name = name := by
  obtain ⟨pre, hpre⟩ := Ext_is_suffix w.windows name
  have hck : checkNameOf w name = ⟨pre⟩ := by
    unfold checkNameOf
    congr 1
    rw [hpre]
    simp
  refine ⟨?_, ?_⟩
  · rw [hck]
    exact sliceTo_of_append name pre (Ext w.windows name).data hpre
  · rw [hck]
    exact String.ext (by rw [String.data_append, hpre])

/-- The slice of `collectDir` never panics once the extension is `.d`: it is
the name without its last two characters, and `.d` put back gives the name. -/
theorem sliceTo_dropDotD (name : String) (h : hasSuffix name ".d" = true) :
    sliceTo name ((name.length : Int) - 2) = some (dropDotD name)
      ∧ dropDotD name ++ ".d" = name := by
  obtain ⟨pre, hpre⟩ := (hasSuffix_iff name ".d").mp h
  have hck : dropDotD name = ⟨pre⟩ := by
    unfold dropDotD
    congr 1
    rw [hpre]
    simp
  refine ⟨?_, ?_⟩
  · rw [hck]
    exact sliceTo_of_append name pre ".d".data hpre
  · rw [hck]
    exact String.ext (by rw [String.data_append, hpre])

/-! ## The loops as list functions -/

theorem getCheckConfig_loop_eq (w : World) (xs : List ConfigRawMap) :
    ∀ acc : List Bytes,
      getCheckConfig.loop w xs acc = acc ++ xs.map (fun inst => w.Marshal (Value.map inst)) := by
  induction xs with
  | nil => intro acc; simp [getCheckConfig.loop]
  | cons x xs ih => intro acc; simp [getCheckConfig.loop, ih]

theorem collectDir_loop_eq (w : World) (dirPath checkName : String) (subs : List FileInfo) :
    ∀ acc : List check.Config,
      collectDir.loop w dirPath checkName subs acc
        = acc ++ subs.filterMap (fun S =>
            if S.IsDir then none
            else (getCheckConfig w checkName (w.Join dirPath S.Name)).toOption) := by
  induction subs with
  | nil => intro acc; simp [collectDir.loop]
  | cons S subs ih =>
    intro acc
    unfold collectDir.loop
    cases hd : S.IsDir
    · simp only [Bool.not_false, if_true]
      cases hg : getCheckConfig w checkName (w.Join dirPath S.Name) with
      | error err => simp [ih, hd, hg, Except.toOption]
      | ok conf => simp [ih, hd, hg, Except.toOption]
    · simp [ih, hd]

/-- The function `collectDir` never panics, and returns what the
specification lets an override directory contribute. -/
theorem collectDir_eq (w : World) (R : String) (e : FileInfo) :
    collectDir w R e
      = some (if hasSuffix e.Name ".d" then overrideConfigs w R (dropDotD e.Name) else []) := by
  unfold collectDir
  by_cases hd : hasSuffix e.Name ".d" = true
  · have hext : Ext w.windows e.Name = ".d" := (Ext_eq_d_iff w.windows e.Name).mpr hd
    obtain ⟨hs, hname⟩ := sliceTo_dropDotD e.Name hd
    simp only [hext, ne_eq, not_true_eq_false, if_false, hd, if_true]
    unfold overrideConfigs
    rw [hname]
    cases hr : w.ReadDir (w.Join R e.Name) with
    | error err => rfl
    | ok subs => simp [hs, collectDir_loop_eq]
  · have hext : Ext w.windows e.Name ≠ ".d" := fun h => hd ((Ext_eq_d_iff w.windows e.Name).mp h)
    simp [hext, hd]

/-- The inner loop of `Collect` never panics, and appends what each entry
contributes. -/
theorem Collect.entries_eq (w : World) (R : String) (es : List FileInfo) :
    ∀ acc : List check.Config,
      Collect.entries w R es acc = some (acc ++ es.flatMap (entryConfigs w R)) := by
  induction es with
  | nil => intro acc; simp [Collect.entries]
  | cons e es ih =>
    intro acc
    unfold Collect.entries
    by_cases hx : hasSuffix e.Name ".example" = true
    · have hext : Ext w.windows e.Name = ".example" := (Ext_eq_example_iff w.windows e.Name).mpr hx
      simp [hext, ih, entryConfigs, ignoredAtTop, hx]
    · have hext : Ext w.windows e.Name ≠ ".example" :=
        fun h => hx ((Ext_eq_example_iff w.windows e.Name).mp h)
      have hx' : hasSuffix e.Name ".example" = false := by simpa using hx
      simp only [hext, if_false]
      cases hdir : e.IsDir
      · obtain ⟨hs, _⟩ := sliceTo_checkName w e.Name
        simp only [Bool.false_eq_true, if_false, hs]
        cases hg : getCheckConfig w (checkNameOf w e.Name) (w.Join R e.Name) with
        | error err => simp [ih, entryConfigs, ignoredAtTop, hx', hdir, hg, parsed]
        | ok conf => simp [ih, entryConfigs, ignoredAtTop, hx', hdir, hg, parsed]
      · simp only [if_true, collectDir_eq, ih]
        by_cases hd : hasSuffix e.Name ".d" = true
        · simp [entryConfigs, ignoredAtTop, hx', hdir, hd]
        · simp [entryConfigs, ignoredAtTop, hx', hdir, hd]

/-- The outer loop of `Collect` never panics, and appends what each root
contributes. -/
theorem Collect.roots_eq (w : World) (roots : List String) :
    ∀ acc : List check.Config,
      Collect.roots w roots acc = some (acc ++ roots.flatMap (rootConfigs w)) := by
  induction roots with
  | nil => intro acc; simp [Collect.roots]
  | cons R roots ih =>
    intro acc
    unfold Collect.roots
    cases hr : w.ReadDir R with
    | error err => simp [ih, rootConfigs, hr]
    | ok es => simp [ih, rootConfigs, hr, Collect.entries_eq]

/-- The method `Collect` returns the contributions of the roots, in order,
and a `nil` error. -/
theorem Collect_eq (w : World) (c : FileConfigProvider) :
    c.Collect w = some (c.paths.flatMap (rootConfigs w), none) := by
  simp [FileConfigProvider.Collect, Collect.roots_eq]

/-! ## The parser -/

/-- The function `getCheckConfig` on a file that is read and decoded. -/
theorem getCheckConfig_of_decoded (w : World) (name fpath : String) (data : Bytes)
    (cf : configFormat) (hr : w.ReadFile fpath = .ok data) (hu : w.Unmarshal data = .ok cf) :
    getCheckConfig w name fpath =
      if cf.Instances.length < 1 then
        .error (GoError.errorString "Configuration file contains no valid instances")
      else
        .ok ⟨name, cf.Instances.map (fun inst => w.Marshal (Value.map inst)),
          w.Marshal cf.InitConfig⟩ := by
  simp [getCheckConfig, hr, hu, getCheckConfig_loop_eq]

/-- A success of `getCheckConfig` comes from a file that was read and decoded
and holds an instance. -/
theorem getCheckConfig_ok_inv (w : World) (name fpath : String) (conf : check.Config)
    (h : getCheckConfig w name fpath = .ok conf) :
    ∃ data cf, w.ReadFile fpath = .ok data ∧ w.Unmarshal data = .ok cf ∧
      1 ≤ cf.Instances.length ∧
      conf = ⟨name, cf.Instances.map (fun inst => w.Marshal (Value.map inst)),
        w.Marshal cf.InitConfig⟩ := by
  cases hr : w.ReadFile fpath with
  | error err => simp [getCheckConfig, hr] at h
  | ok data =>
    cases hu : w.Unmarshal data with
    | error err => simp [getCheckConfig, hr, hu] at h
    | ok cf =>
      rw [getCheckConfig_of_decoded w name fpath data cf hr hu] at h
      by_cases hlen : cf.Instances.length < 1
      · simp [hlen] at h
      · simp only [hlen, if_false, Except.ok.injEq] at h
        exact ⟨data, cf, rfl, hu, by omega, h.symm⟩

/-- Where a config of a root comes from: a top-level file or a file of an
override directory of that root, parsed under the name the config bears. -/
theorem mem_rootConfigs (w : World) (R : String) (conf : check.Config)
    (h : conf ∈ rootConfigs w R) :
    ∃ es, w.ReadDir R = .ok es ∧ ∃ e ∈ es,
      (e.IsDir = false ∧ conf.Name ++ Ext w.windows e.Name = e.Name ∧
          getCheckConfig w conf.Name (w.Join R e.Name) = .ok conf) ∨
      (e.IsDir = true ∧ conf.Name ++ ".d" = e.Name ∧
          ∃ S, getCheckConfig w conf.Name (w.Join (w.Join R e.Name) S) = .ok conf) := by
  unfold rootConfigs at h
  cases hr : w.ReadDir R with
  | error err => simp [hr] at h
  | ok es =>
    rw [hr] at h
    simp only [List.mem_flatMap] at h
    obtain ⟨e, he, hconf⟩ := h
    refine ⟨es, rfl, e, he, ?_⟩
    unfold entryConfigs at hconf
    by_cases hig : ignoredAtTop e = true
    · simp [hig] at hconf
    · simp only [hig, Bool.false_eq_true, if_false] at hconf
      cases hdir : e.IsDir
      · left
        simp only [hdir, Bool.false_eq_true, if_false] at hconf
        cases hg : getCheckConfig w (checkNameOf w e.Name) (w.Join R e.Name) with
        | error err => simp [hg, parsed] at hconf
        | ok c0 =>
          simp only [hg, parsed, List.mem_singleton] at hconf
          subst hconf
          obtain ⟨data, cf, _, _, _, hc⟩ := getCheckConfig_ok_inv w _ _ _ hg
          have hn : conf.Name = checkNameOf w e.Name := by rw [hc]
          refine ⟨rfl, ?_, ?_⟩
          · rw [hn]; exact (sliceTo_checkName w e.Name).2
          · rw [hn]; exact hg
      · right
        simp only [hdir, if_true] at hconf
        have hd : hasSuffix e.Name ".d" = true := by
          simp only [ignoredAtTop, hdir, Bool.true_and, Bool.or_eq_true, Bool.not_eq_true',
            not_or, Bool.not_eq_true, Bool.not_eq_false] at hig
          exact hig.2
        unfold overrideConfigs at hconf
        cases hr2 : w.ReadDir (w.Join R (dropDotD e.Name ++ ".d")) with
        | error err => simp [hr2] at hconf
        | ok subs =>
          simp only [hr2, List.mem_filterMap] at hconf
          obtain ⟨S, _, hS⟩ := hconf
          cases hSd : S.IsDir
          · simp only [hSd, Bool.false_eq_true, if_false] at hS
            cases hg : getCheckConfig w (dropDotD e.Name)
                (w.Join (w.Join R (dropDotD e.Name ++ ".d")) S.Name) with
            | error err => simp [hg, Except.toOption] at hS
            | ok c0 =>
              simp only [hg, Except.toOption, Option.some.injEq] at hS
              subst hS
              obtain ⟨data, cf, _, _, _, hc⟩ := getCheckConfig_ok_inv w _ _ _ hg
              have hn : c0.Name = dropDotD e.Name := by rw [hc]
              have hname := (sliceTo_dropDotD e.Name hd).2
              refine ⟨rfl, ?_, S.Name, ?_⟩
              · rw [hn]; exact hname
              · rw [hn]; rw [hname] at hg; exact hg
          · simp [hSd] at hS

/-! ## The walk -/

theorem entryConfigs_of_ignored (w : World) (R : String) (e : FileInfo)
    (h : ignoredAtTop e = true) : entryConfigs w R e = [] := by
  simp [entryConfigs, h]

theorem flatMap_pruned (w : World) (R : String) (es : List FileInfo) :
    (pruned es).flatMap (entryConfigs w R) = es.flatMap (entryConfigs w R) := by
  induction es with
  | nil => rfl
  | cons e es ih =>
    unfold pruned at ih ⊢
    by_cases h : ignoredAtTop e = true
    · simp [List.filter_cons, h, entryConfigs_of_ignored w R e h, ih]
    · simp [List.filter_cons, h, ih]

theorem getCheckConfig_withReadDir (w : World)
    (readDir : String → Except GoError (List FileInfo)) (name fpath : String) :
    getCheckConfig (w.withReadDir readDir) name fpath = getCheckConfig w name fpath := by
  simp [getCheckConfig, World.withReadDir, getCheckConfig_loop_eq]

theorem example_suffix_excludes_d (name : String) (h : hasSuffix name ".d" = true) :
    hasSuffix name ".example" = false := by
  cases hx : hasSuffix name ".example" with
  | false => rfl
  | true =>
    have h1 := (Ext_eq_d_iff false name).mpr h
    have h2 := (Ext_eq_example_iff false name).mpr hx
    rw [h1] at h2
    exact absurd h2 (by decide)

theorem hasSuffix_append_self (X suffix : String) : hasSuffix (X ++ suffix) suffix = true :=
  (hasSuffix_iff _ _).mpr ⟨X.data, String.data_append X suffix⟩

theorem dropDotD_append (X : String) : dropDotD (X ++ ".d") = X := by
  unfold dropDotD
  apply String.ext
  simp [String.data_append]

theorem mem_overrideConfigs (w : World) (R X : String) (conf : check.Config) :
    conf ∈ overrideConfigs w R X ↔
      ∃ subs, w.ReadDir (w.Join R (X ++ ".d")) = .ok subs ∧ ∃ S ∈ subs, S.IsDir = false ∧
        getCheckConfig w X (w.Join (w.Join R (X ++ ".d")) S.Name) = .ok conf := by
  unfold overrideConfigs
  cases hr : w.ReadDir (w.Join R (X ++ ".d")) with
  | error err => simp
  | ok subs =>
    simp only [List.mem_filterMap, Except.ok.injEq, exists_eq_left']
    constructor
    · rintro ⟨S, hS, h⟩
      cases hd : S.IsDir
      · simp only [hd, Bool.false_eq_true, if_false] at h
        cases hg : getCheckConfig w X (w.Join (w.Join R (X ++ ".d")) S.Name) with
        | error err => simp [hg, Except.toOption] at h
        | ok c0 =>
          simp only [hg, Except.toOption, Option.some.injEq] at h
          exact ⟨S, hS, hd, by rw [hg, h]⟩
      · simp [hd] at h
    · rintro ⟨S, hS, hd, hg⟩
      exact ⟨S, hS, by simp [hd, hg, Except.toOption]⟩

/-- The contribution of a root whose listing is split around one entry. -/
theorem Collect_single_root_split (w : World) (R : String) (pre post : List FileInfo)
    (e : FileInfo) (h : w.ReadDir R = .ok (pre ++ e :: post)) :
    ∃ before after, Collect.entries w R pre [] = some before ∧
      Collect.entries w R post [] = some after ∧
      (NewFileConfigProvider [R]).Collect w
        = some (before ++ entryConfigs w R e ++ after, none) := by
  refine ⟨pre.flatMap (entryConfigs w R), post.flatMap (entryConfigs w R), ?_, ?_, ?_⟩
  · simp [Collect.entries_eq]
  · simp [Collect.entries_eq]
  · simp [Collect_eq, NewFileConfigProvider, rootConfigs, h]

/-! ## The claims on the walk -/

/-- C1: for every list of search roots and every state of the file system,
`Collect` returns a list and a `nil` error, and no slice of a name panics; a
root or an override directory that cannot be listed and a file the parser
refuses (unreadable, undecodable or without instances) are passed over and
the scan goes on with the next one. -/
theorem Collect_returns_nil_error (w : World) (c : FileConfigProvider) :
    (∃ configs, c.Collect w = some (configs, none)) ∧
    (∀ R rest configs err, w.ReadDir R = .error err →
        Collect.roots w (R :: rest) configs = Collect.roots w rest configs) ∧
    (∀ R e err, w.ReadDir (w.Join R e.Name) = .error err → collectDir w R e = some []) ∧
    (∀ R e rest configs err, e.IsDir = false →
        getCheckConfig w (checkNameOf w e.Name) (w.Join R e.Name) = .error err →
        Collect.entries w R (e :: rest) configs = Collect.entries w R rest configs) ∧
    (∀ dirPath checkName S rest configs err,
        getCheckConfig w checkName (w.Join dirPath S.Name) = .error err →
        collectDir.loop w dirPath checkName (S :: rest) configs
          = collectDir.loop w dirPath checkName rest configs) := by
  refine ⟨⟨_, Collect_eq w c⟩, ?_, ?_, ?_, ?_⟩
  · intro R rest configs err h
    simp [Collect.roots_eq, rootConfigs, h]
  · intro R e err h
    rw [collectDir_eq]
    by_cases hd : hasSuffix e.Name ".d" = true
    · have hname := (sliceTo_dropDotD e.Name hd).2
      simp [hd, overrideConfigs, hname, h]
    · simp [hd]
  · intro R e rest configs err hd hg
    simp only [Collect.entries_eq, List.flatMap_cons, Option.some.injEq,
      List.append_cancel_left_eq, List.append_left_eq_self]
    unfold entryConfigs
    by_cases hig : ignoredAtTop e = true
    · simp [hig]
    · simp [hig, hd, hg, parsed]
  · intro dirPath checkName S rest configs err hg
    simp only [collectDir_loop_eq, List.filterMap_cons, hg, Except.toOption]
    cases S.IsDir <;> simp

/-- C2: for every list of roots and every state of the file system, every
config in the list `Collect` returns has at least one instance blob. -/
theorem Collect_configs_have_an_instance (w : World) (c : FileConfigProvider) :
    ∃ configs, c.Collect w = some (configs, none) ∧
      ∀ conf ∈ configs, 1 ≤ conf.Instances.length := by
  refine ⟨_, Collect_eq w c, ?_⟩
  intro conf hconf
  simp only [List.mem_flatMap] at hconf
  obtain ⟨R, _, hR⟩ := hconf
  obtain ⟨es, _, e, _, h⟩ := mem_rootConfigs w R conf hR
  have key : ∀ fpath, getCheckConfig w conf.Name fpath = .ok conf → 1 ≤ conf.Instances.length := by
    intro fpath hg
    obtain ⟨data, cf, _, _, hlen, hc⟩ := getCheckConfig_ok_inv w _ _ _ hg
    rw [hc]
    simpa using hlen
  rcases h with ⟨_, _, hg⟩ | ⟨_, _, S, hg⟩
  · exact key _ hg
  · exact key _ hg

/-- The method `Collect` returns the same in a world where every root lists
only the entries the walker keeps, if the directories inside the roots list
what they did. -/
theorem Collect_withReadDir (w : World) (c : FileConfigProvider)
    (readDir : String → Except GoError (List FileInfo))
    (hroot : ∀ R ∈ c.paths, readDir R = (w.ReadDir R).map pruned)
    (hsub : ∀ R ∈ c.paths, ∀ es, w.ReadDir R = .ok es → ∀ e ∈ es,
      readDir (w.Join R e.Name) = w.ReadDir (w.Join R e.Name)) :
    c.Collect (w.withReadDir readDir) = c.Collect w := by
  rw [Collect_eq, Collect_eq]
  suffices hco : c.paths.flatMap (rootConfigs (w.withReadDir readDir))
      = c.paths.flatMap (rootConfigs w) by rw [hco]
  apply List.flatMap_congr
  intro R hR
  unfold rootConfigs
  have h1 : (w.withReadDir readDir).ReadDir R = (w.ReadDir R).map pruned := hroot R hR
  rw [h1]
  cases hr : w.ReadDir R with
  | error err => rfl
  | ok es =>
    show (pruned es).flatMap (entryConfigs (w.withReadDir readDir) R)
      = es.flatMap (entryConfigs w R)
    rw [← flatMap_pruned w R es]
    apply List.flatMap_congr
    intro e he
    have hmem : e ∈ es := (List.mem_filter.mp he).1
    have hsame := hsub R hR es hr e hmem
    unfold entryConfigs
    by_cases hig : ignoredAtTop e = true
    · simp [hig]
    · simp only [hig, Bool.false_eq_true, if_false]
      cases hdir : e.IsDir
      · simp only [Bool.false_eq_true, if_false, getCheckConfig_withReadDir]
        rfl
      · have hd : hasSuffix e.Name ".d" = true := by
          simp only [ignoredAtTop, hdir, Bool.true_and, Bool.or_eq_true, Bool.not_eq_true',
            not_or, Bool.not_eq_true, Bool.not_eq_false] at hig
          exact hig.2
        have hname := (sliceTo_dropDotD e.Name hd).2
        simp only [if_true]
        unfold overrideConfigs
        rw [hname]
        have h2 : (w.withReadDir readDir).ReadDir ((w.withReadDir readDir).Join R e.Name)
            = w.ReadDir (w.Join R e.Name) := hsame
        rw [h2]
        cases w.ReadDir (w.Join R e.Name) with
        | error err => rfl
        | ok subs =>
          simp only [getCheckConfig_withReadDir]
          rfl

/-- C3, amended: the ignored top-level entries contribute nothing.  The inner
loop of `Collect` gives the same result on a listing and on the listing
without the entries whose name ends in `.example` and the directories whose
name has another end than `.d`; `Collect` returns the same in a world where
every root lists only the entries that are left, provided the directories
inside the roots list what they did, which is so when no root is itself an
entry of a root; the tests of the code on `filepath.Ext` are the tests on how
the name ends; and the directory `foo.d.example` is ignored. -/
theorem ignored_entries_contribute_nothing (w : World) (c : FileConfigProvider) :
    (∀ R entries configs,
        Collect.entries w R (pruned entries) configs = Collect.entries w R entries configs) ∧
    (∀ readDir : String → Except GoError (List FileInfo),
        (∀ R ∈ c.paths, readDir R = (w.ReadDir R).map pruned) →
        (∀ R ∈ c.paths, ∀ es, w.ReadDir R = .ok es → ∀ e ∈ es,
            readDir (w.Join R e.Name) = w.ReadDir (w.Join R e.Name)) →
        c.Collect (w.withReadDir readDir) = c.Collect w) ∧
    (∀ name, Ext w.windows name = ".example" ↔ hasSuffix name ".example" = true) ∧
    (∀ name, Ext w.windows name ≠ ".d" ↔ hasSuffix name ".d" = false) ∧
    (∀ e, ignoredAtTop e = true ↔
        (hasSuffix e.Name ".example" = true ∨ (e.IsDir = true ∧ hasSuffix e.Name ".d" = false))) ∧
    ignoredAtTop ⟨"foo.d.example", true⟩ = true ∧
    ((∀ R ∈ c.paths, ∀ es, w.ReadDir R = .ok es → ∀ e ∈ es, w.Join R e.Name ∉ c.paths) →
        c.Collect (w.pruneRoots c.paths) = c.Collect w) := by
  refine ⟨?_, Collect_withReadDir w c, Ext_eq_example_iff w.windows, ?_, ?_, by decide, ?_⟩
  · intro R entries configs
    rw [Collect.entries_eq, Collect.entries_eq, flatMap_pruned]
  · intro name
    rw [Ne, Ext_eq_d_iff]
    simp
  · intro e
    simp [ignoredAtTop]
  · intro hno
    apply Collect_withReadDir
    · intro R hR
      simp [hR]
    · intro R hR es hes e he
      simp [hno R hR es hes e he]

/-- C3, as stated, fails when a root is an override directory of another
root: in the sample world with the roots `/etc/dd` and `/etc/dd/nginx.d`,
removing the ignored entries from the listing of every root takes
`b.yaml.example` out of `nginx.d`, and the config `/etc/dd` loaded from it
under the name `nginx` is no longer in the output of `Collect`. -/
theorem pruning_a_nested_root_changes_Collect :
    (sampleWorld.pruneRoots ["/etc/dd", "/etc/dd/nginx.d"]).ReadDir "/etc/dd"
      = (sampleWorld.ReadDir "/etc/dd").map pruned ∧
    (sampleWorld.pruneRoots ["/etc/dd", "/etc/dd/nginx.d"]).ReadDir "/etc/dd/nginx.d"
      = (sampleWorld.ReadDir "/etc/dd/nginx.d").map pruned ∧
    (sampleWorld.ReadDir "/etc/dd/nginx.d").map pruned = .ok [⟨"a.yaml", false⟩] ∧
    (NewFileConfigProvider ["/etc/dd", "/etc/dd/nginx.d"]).Collect sampleWorld
      = some ([⟨"cpu", ["host: h1\n"], "null\n"⟩, ⟨"nginx", ["host: h1\n"], "null\n"⟩,
          ⟨"nginx", ["host: h2\n"], "null\n"⟩, ⟨"a", ["host: h1\n"], "null\n"⟩], none) ∧
    (NewFileConfigProvider ["/etc/dd", "/etc/dd/nginx.d"]).Collect
        (sampleWorld.pruneRoots ["/etc/dd", "/etc/dd/nginx.d"])
      = some ([⟨"cpu", ["host: h1\n"], "null\n"⟩, ⟨"nginx", ["host: h1\n"], "null\n"⟩,
          ⟨"a", ["host: h1\n"], "null\n"⟩], none) :=
  ⟨rfl, rfl, rfl, by decide, by decide⟩

/-- C3, an instance: the root `/etc/dd` of the sample world without its
ignored entries (`disk.yaml.example`, `foo.d.example`, `notes`) gives the
same configs. -/
theorem ignored_entries_contribute_nothing_witness :
    (NewFileConfigProvider ["/etc/dd"]).Collect
        (sampleWorld.withReadDir fun path =>
          if path = "/etc/dd" then
            .ok [⟨"LICENSE", false⟩, ⟨"broken.yaml", false⟩, ⟨"cpu.yaml", false⟩,
                 ⟨"empty.yaml", false⟩, ⟨"five.yaml", false⟩, ⟨"nginx.d", true⟩]
          else sampleReadDir path)
      = (NewFileConfigProvider ["/etc/dd"]).Collect sampleWorld :=
  (ignored_entries_contribute_nothing sampleWorld (NewFileConfigProvider ["/etc/dd"])).2.1 _
    (by
      intro R hR
      simp only [NewFileConfigProvider, List.mem_singleton] at hR
      subst hR
      rfl)
    (by
      intro R hR es hes e he
      simp only [NewFileConfigProvider, List.mem_singleton] at hR
      subst hR
      have hes' : es = [⟨"LICENSE", false⟩, ⟨"broken.yaml", false⟩, ⟨"cpu.yaml", false⟩,
          ⟨"disk.yaml.example", false⟩, ⟨"empty.yaml", false⟩, ⟨"five.yaml", false⟩,
          ⟨"foo.d.example", true⟩, ⟨"nginx.d", true⟩, ⟨"notes", true⟩] :=
        (Except.ok.inj hes).symm
      subst hes'
      simp only [List.mem_cons, List.mem_singleton, List.not_mem_nil, or_false] at he
      rcases he with h | h | h | h | h | h | h | h | h <;> subst h <;> rfl)

/-- C4: a top-level directory `X.d` of a listable root `R` is not ignored,
its check name `X` is its name without the last two characters, and what it
adds to the output of `Collect`, between what the entries before it and the
entries after it add, is `parse(X, R/X.d/S)` for each child `S` that is not a
directory and on which the parser succeeds, in listing order, each config
with `Name = X`: a child counts whatever its name, a subdirectory never. -/
theorem override_directory_contributes (w : World) (R X : String) (pre post : List FileInfo)
    (h : w.ReadDir R = .ok (pre ++ ⟨X ++ ".d", true⟩ :: post)) :
    hasSuffix (X ++ ".d") ".example" = false ∧
    sliceTo (X ++ ".d") (((X ++ ".d").length : Int) - 2) = some X ∧
    collectDir w R ⟨X ++ ".d", true⟩ = some (overrideConfigs w R X) ∧
    (∀ conf ∈ overrideConfigs w R X, conf.Name = X) ∧
    (∀ conf, conf ∈ overrideConfigs w R X ↔
        ∃ subs, w.ReadDir (w.Join R (X ++ ".d")) = .ok subs ∧ ∃ S ∈ subs, S.IsDir = false ∧
          getCheckConfig w X (w.Join (w.Join R (X ++ ".d")) S.Name) = .ok conf) ∧
    ∃ before after, Collect.entries w R pre [] = some before ∧
      Collect.entries w R post [] = some after ∧
      (NewFileConfigProvider [R]).Collect w
        = some (before ++ overrideConfigs w R X ++ after, none) := by
  have hd : hasSuffix (X ++ ".d") ".d" = true := hasSuffix_append_self X ".d"
  have hx : hasSuffix (X ++ ".d") ".example" = false := example_suffix_excludes_d _ hd
  have hdrop : dropDotD (X ++ ".d") = X := dropDotD_append X
  refine ⟨hx, ?_, ?_, ?_, mem_overrideConfigs w R X, ?_⟩
  · have := (sliceTo_dropDotD (X ++ ".d") hd).1
    rw [hdrop] at this
    exact this
  · rw [collectDir_eq]
    simp [hd, hdrop]
  · intro conf hconf
    obtain ⟨subs, _, S, _, _, hg⟩ := (mem_overrideConfigs w R X conf).mp hconf
    obtain ⟨data, cf, _, _, _, hc⟩ := getCheckConfig_ok_inv w _ _ _ hg
    rw [hc]
  · obtain ⟨before, after, hb, ha, hc⟩ := Collect_single_root_split w R pre post _ h
    refine ⟨before, after, hb, ha, ?_⟩
    rw [hc]
    simp [entryConfigs, ignoredAtTop, hx, hd, hdrop]

/-- C4, an instance: in the sample world the directory `nginx.d` of `/etc/dd`
adds two configs named `nginx`, from `a.yaml` and from `b.yaml.example`, and
nothing from its subdirectory `sub`. -/
theorem override_directory_contributes_witness :
    overrideConfigs sampleWorld "/etc/dd" "nginx"
        = [⟨"nginx", ["host: h1\n"], "null\n"⟩, ⟨"nginx", ["host: h2\n"], "null\n"⟩] ∧
    ∃ before after,
      (NewFileConfigProvider ["/etc/dd"]).Collect sampleWorld
        = some (before ++ overrideConfigs sampleWorld "/etc/dd" "nginx" ++ after, none) := by
  obtain ⟨_, _, _, _, _, before, after, _, _, hc⟩ :=
    override_directory_contributes sampleWorld "/etc/dd" "nginx"
      [⟨"LICENSE", false⟩, ⟨"broken.yaml", false⟩, ⟨"cpu.yaml", false⟩,
        ⟨"disk.yaml.example", false⟩, ⟨"empty.yaml", false⟩, ⟨"five.yaml", false⟩,
        ⟨"foo.d.example", true⟩]
      [⟨"notes", true⟩] rfl
  exact ⟨by decide, before, after, hc⟩

/-- C5: a top-level file `E` of a listable root `R` whose name does not end in
`.example` is parsed at `R/E` under the check name the slice of the code
gives: `E` without its final extension, so that the check name followed by
the extension is `E`; it is `E` itself when `E` holds no dot, and what stands
before the last dot otherwise.  What the file adds to the output of `Collect`
is that one config when the parser succeeds and nothing when it fails.  The
name `http_check.yaml` gives `http_check`. -/
theorem top_level_file_contributes (w : World) (R E : String) (pre post : List FileInfo)
    (h : w.ReadDir R = .ok (pre ++ ⟨E, false⟩ :: post))
    (hx : hasSuffix E ".example" = false) :
    ∃ checkName,
      sliceTo E ((E.length : Int) - ((Ext w.windows E).length : Int)) = some checkName ∧
      checkName ++ Ext w.windows E = E ∧
      ('.' ∉ E.data → checkName = E) ∧
      (∀ a b : List Char, E.data = a ++ '.' :: b →
          (∀ ch ∈ b, IsPathSeparator w.windows ch = false ∧ ch ≠ '.') →
          checkName = ⟨a⟩ ∧ Ext w.windows E = ⟨'.' :: b⟩) ∧
      (∀ conf, getCheckConfig w checkName (w.Join R E) = .ok conf → conf.Name = checkName) ∧
      (∃ before after, Collect.entries w R pre [] = some before ∧
        Collect.entries w R post [] = some after ∧
        (NewFileConfigProvider [R]).Collect w
          = some (before ++ parsed (getCheckConfig w checkName (w.Join R E)) ++ after, none)) ∧
      sliceTo "http_check.yaml" (("http_check.yaml".length : Int)
          - ((Ext w.windows "http_check.yaml").length : Int)) = some "http_check" := by
  obtain ⟨hs, happ⟩ := sliceTo_checkName w E
  refine ⟨checkNameOf w E, hs, happ, ?_, ?_, ?_, ?_, ?_⟩
  · intro hdot
    have hext : Ext w.windows E = "" := by
      unfold Ext
      rw [Ext.loop_without_dot w.windows E.data.reverse (by simpa using hdot) []]
    rw [hext] at happ
    simpa using happ
  · intro a b hE hb
    have hE' : E = ⟨a ++ '.' :: b⟩ := String.ext hE
    have hext : Ext w.windows E = ⟨'.' :: b⟩ := by
      rw [hE']; exact Ext_of_last_dot w.windows a b hb
    refine ⟨?_, hext⟩
    unfold checkNameOf
    rw [hext]
    apply String.ext
    simp [hE]
  · intro conf hg
    obtain ⟨data, cf, _, _, _, hc⟩ := getCheckConfig_ok_inv w _ _ _ hg
    rw [hc]
  · obtain ⟨before, after, hb, ha, hc⟩ := Collect_single_root_split w R pre post _ h
    refine ⟨before, after, hb, ha, ?_⟩
    rw [hc]
    simp [entryConfigs, ignoredAtTop, hx]
  · cases w.windows <;> decide

/-- C5, an instance: in the sample world the file `cpu.yaml` of `/opt/dd` is
parsed under the name `cpu`, and its config is what the root adds. -/
theorem top_level_file_contributes_witness :
    sampleWorld.ReadDir "/opt/dd" = .ok [⟨"cpu.yaml", false⟩] ∧
    ∃ before after,
      (NewFileConfigProvider ["/opt/dd"]).Collect sampleWorld
        = some (before
            ++ parsed (getCheckConfig sampleWorld "cpu" (sampleWorld.Join "/opt/dd" "cpu.yaml"))
            ++ after, none) ∧
      parsed (getCheckConfig sampleWorld "cpu" (sampleWorld.Join "/opt/dd" "cpu.yaml"))
        = [⟨"cpu", ["host: h2\n"], "null\n"⟩] := by
  obtain ⟨checkName, hs, _, _, _, _, ⟨before, after, _, _, hc⟩, _⟩ :=
    top_level_file_contributes sampleWorld "/opt/dd" "cpu.yaml" [] [] rfl (by decide)
  have hname : checkName = "cpu" := by
    have h0 : sliceTo "cpu.yaml" (("cpu.yaml".length : Int)
        - ((Ext sampleWorld.windows "cpu.yaml").length : Int)) = some "cpu" := by decide
    rw [h0] at hs
    exact (Option.some.inj hs).symm
  subst hname
  exact ⟨rfl, before, after, hc, by decide⟩

/-- C6: on one file system `Collect` distributes over the concatenation of
root lists: the list for `A ++ B` is the list for `A` followed by the list for
`B`, nothing being merged or dropped by name; the empty list of roots gives
the empty list; and two roots that each hold only a valid `cpu.yaml` give two
configs named `cpu`, the first root's first. -/
theorem Collect_append (w : World) (A B : List String) :
    (∃ ca cb, (NewFileConfigProvider A).Collect w = some (ca, none) ∧
      (NewFileConfigProvider B).Collect w = some (cb, none) ∧
      (NewFileConfigProvider (A ++ B)).Collect w = some (ca ++ cb, none)) ∧
    (NewFileConfigProvider []).Collect w = some ([], none) ∧
    (∀ a b ca cb, w.ReadDir a = .ok [⟨"cpu.yaml", false⟩] →
      w.ReadDir b = .ok [⟨"cpu.yaml", false⟩] →
      getCheckConfig w "cpu" (w.Join a "cpu.yaml") = .ok ca →
      getCheckConfig w "cpu" (w.Join b "cpu.yaml") = .ok cb →
      (NewFileConfigProvider [a, b]).Collect w = some ([ca, cb], none) ∧
        ca.Name = "cpu" ∧ cb.Name = "cpu") := by
  refine ⟨⟨_, _, Collect_eq w _, Collect_eq w _, ?_⟩, ?_, ?_⟩
  · rw [Collect_eq]
    simp [NewFileConfigProvider]
  · rw [Collect_eq]
    rfl
  · intro a b ca cb ha hb hca hcb
    have hname : checkNameOf w "cpu.yaml" = "cpu" := by
      unfold checkNameOf
      cases w.windows <;> decide
    have hig : ignoredAtTop ⟨"cpu.yaml", false⟩ = false := by decide
    refine ⟨?_, ?_, ?_⟩
    · rw [Collect_eq]
      simp [NewFileConfigProvider, rootConfigs, ha, hb, entryConfigs, hig, hname, hca, hcb,
        parsed]
    · obtain ⟨data, cf, _, _, _, hc⟩ := getCheckConfig_ok_inv w _ _ _ hca
      rw [hc]
    · obtain ⟨data, cf, _, _, _, hc⟩ := getCheckConfig_ok_inv w _ _ _ hcb
      rw [hc]

/-! ## The decoder -/

theorem unmarshalRawMap_cases (x : Value) :
    (x.isRawMap = true ∧ (unmarshalRawMap x = .good x.rawMap ∨ unmarshalRawMap x = .fail)) ∨
    (x.isRawMap = false ∧ unmarshalRawMap x = .terror (x.tag, "check.ConfigRawMap")) := by
  cases x with
  | null => left; exact ⟨rfl, Or.inl rfl⟩
  | map pairs =>
    left
    refine ⟨rfl, ?_⟩
    unfold unmarshalRawMap
    by_cases h : Value.decodesPairs pairs = true
    · left; simp [h, Value.rawMap]
    · right; simp [h]
  | bool b => right; exact ⟨rfl, rfl⟩
  | int n => right; exact ⟨rfl, rfl⟩
  | float t => right; exact ⟨rfl, rfl⟩
  | str t => right; exact ⟨rfl, rfl⟩
  | seq xs => right; exact ⟨rfl, rfl⟩

/-- The loop over the entries of `instances`: type errors are only added; if
none is added every entry was a null or a mapping and each gave one element,
in order; an entry of another kind adds its type error. -/
theorem unmarshalInstances.loop_spec (items : List Value) :
    ∀ (out : List ConfigRawMap) (t : List Refusal) (r : List ConfigRawMap × List Refusal),
      unmarshalInstances.loop items out t = some r →
      ∃ s, r.2 = t ++ s ∧
        (s = [] → r.1 = out ++ items.map Value.rawMap ∧ ∀ x ∈ items, x.isRawMap = true) ∧
        (∀ x ∈ items, x.isRawMap = false → (x.tag, "check.ConfigRawMap") ∈ s) := by
  induction items with
  | nil =>
    intro out t r h
    simp only [unmarshalInstances.loop, Option.some.injEq] at h
    subst h
    exact ⟨[], by simp, by simp, by simp⟩
  | cons x rest ih =>
    intro out t r h
    unfold unmarshalInstances.loop at h
    rcases unmarshalRawMap_cases x with ⟨hx, hgood | hfail⟩ | ⟨hx, hterr⟩
    · rw [hgood] at h
      obtain ⟨s, hs, h1, h2⟩ := ih _ _ _ h
      refine ⟨s, hs, ?_, ?_⟩
      · intro hs0
        obtain ⟨ha, hb⟩ := h1 hs0
        refine ⟨by simp [ha], ?_⟩
        intro y hy
        rcases List.mem_cons.mp hy with rfl | hy
        · exact hx
        · exact hb y hy
      · intro y hy hyb
        rcases List.mem_cons.mp hy with rfl | hy
        · rw [hx] at hyb; exact absurd hyb (by decide)
        · exact h2 y hy hyb
    · rw [hfail] at h
      exact absurd h (by simp)
    · rw [hterr] at h
      obtain ⟨s, hs, _, h2⟩ := ih _ _ _ h
      refine ⟨(x.tag, "check.ConfigRawMap") :: s, by simp [hs], by simp, ?_⟩
      intro y hy hyb
      rcases List.mem_cons.mp hy with rfl | hy
      · exact List.mem_cons_self _ _
      · exact List.mem_cons_of_mem _ (h2 y hy hyb)

/-- The field `Instances` after the value of a key `instances` is decoded. -/
theorem unmarshalInstances_spec (n : Value) (cf : configFormat) (t : List Refusal)
    (r : configFormat × List Refusal) (h : unmarshalInstances n cf t = some r) :
    ∃ s, r.2 = t ++ s ∧ r.1.InitConfig = cf.InitConfig ∧
      ∀ items, n = .seq items →
        (s = [] → r.1.Instances = items.map Value.rawMap ∧ ∀ x ∈ items, x.isRawMap = true) ∧
        (∀ x ∈ items, x.isRawMap = false → (x.tag, "check.ConfigRawMap") ∈ s) := by
  cases n with
  | seq items =>
    unfold unmarshalInstances at h
    cases hl : unmarshalInstances.loop items [] t with
    | none => simp [hl] at h
    | some r0 =>
      obtain ⟨s, hs, h1, h2⟩ := unmarshalInstances.loop_spec items [] t r0 hl
      obtain ⟨out, t0⟩ := r0
      simp only [hl, Option.some.injEq] at h
      subst h
      refine ⟨s, hs, rfl, ?_⟩
      intro items0 h0
      cases h0
      exact ⟨fun hs0 => by simpa using h1 hs0, h2⟩
  | null =>
    simp only [unmarshalInstances, Option.some.injEq] at h
    subst h
    exact ⟨[], by simp, rfl, by intro items h0; cases h0⟩
  | bool b =>
    simp only [unmarshalInstances, Option.some.injEq] at h
    subst h
    exact ⟨_, rfl, rfl, by intro items h0; cases h0⟩
  | int i =>
    simp only [unmarshalInstances, Option.some.injEq] at h
    subst h
    exact ⟨_, rfl, rfl, by intro items h0; cases h0⟩
  | float f =>
    simp only [unmarshalInstances, Option.some.injEq] at h
    subst h
    exact ⟨_, rfl, rfl, by intro items h0; cases h0⟩
  | str f =>
    simp only [unmarshalInstances, Option.some.injEq] at h
    subst h
    exact ⟨_, rfl, rfl, by intro items h0; cases h0⟩
  | map f =>
    simp only [unmarshalInstances, Option.some.injEq] at h
    subst h
    exact ⟨_, rfl, rfl, by intro items h0; cases h0⟩

theorem unmarshalInitConfig_spec (n : Value) (cf : configFormat) (t : List Refusal)
    (r : configFormat × List Refusal) (h : unmarshalInitConfig n cf t = some r) :
    r = (⟨n, cf.Instances⟩, t) := by
  unfold unmarshalInitConfig at h
  by_cases hd : n.decodes = true
  · simp only [hd, if_true, Option.some.injEq] at h
    exact h.symm
  · simp [hd] at h

/-- The walk over the bindings of the document: type errors are only added; a
field whose key does not occur keeps its value; an entry under a key
`instances` that is neither a null nor a mapping adds its type error. -/
theorem mappingStruct_spec (pairs : List (Value × Value)) :
    ∀ (cf : configFormat) (t : List Refusal) (r : configFormat × List Refusal),
      mappingStruct pairs cf t = some r →
      ∃ s, r.2 = t ++ s ∧
        ((∀ v, (Value.str "init_config", v) ∉ pairs) → r.1.InitConfig = cf.InitConfig) ∧
        ((∀ v, (Value.str "instances", v) ∉ pairs) → r.1.Instances = cf.Instances) ∧
        (∀ items x, (Value.str "instances", Value.seq items) ∈ pairs → x ∈ items →
          x.isRawMap = false → (x.tag, "check.ConfigRawMap") ∈ s) := by
  induction pairs with
  | nil =>
    intro cf t r h
    simp only [mappingStruct, Option.some.injEq] at h
    subst h
    exact ⟨[], by simp, fun _ => rfl, fun _ => rfl, by simp⟩
  | cons kv rest ih =>
    intro cf t r h
    obtain ⟨k, v⟩ := kv
    have skip : mappingStruct rest cf t = some r → (∀ name, k ≠ Value.str name) →
        ∃ s, r.2 = t ++ s ∧
        ((∀ v0, (Value.str "init_config", v0) ∉ (k, v) :: rest) → r.1.InitConfig = cf.InitConfig) ∧
        ((∀ v0, (Value.str "instances", v0) ∉ (k, v) :: rest) → r.1.Instances = cf.Instances) ∧
        (∀ items x, (Value.str "instances", Value.seq items) ∈ (k, v) :: rest → x ∈ items →
          x.isRawMap = false → (x.tag, "check.ConfigRawMap") ∈ s) := by
      intro h0 hk
      obtain ⟨s, hs, h1, h2, h3⟩ := ih cf t r h0
      refine ⟨s, hs, ?_, ?_, ?_⟩
      · intro hno
        exact h1 (fun v0 hm => hno v0 (List.mem_cons_of_mem _ hm))
      · intro hno
        exact h2 (fun v0 hm => hno v0 (List.mem_cons_of_mem _ hm))
      · intro items x hm hx hb
        rcases List.mem_cons.mp hm with heq | hm
        · exact absurd (congrArg Prod.fst heq).symm (hk _)
        · exact h3 items x hm hx hb
    have skipErr : ∀ refused, mappingStruct rest cf (t ++ [refused]) = some r →
        (∀ name, k ≠ Value.str name) →
        ∃ s, r.2 = t ++ s ∧
        ((∀ v0, (Value.str "init_config", v0) ∉ (k, v) :: rest) → r.1.InitConfig = cf.InitConfig) ∧
        ((∀ v0, (Value.str "instances", v0) ∉ (k, v) :: rest) → r.1.Instances = cf.Instances) ∧
        (∀ items x, (Value.str "instances", Value.seq items) ∈ (k, v) :: rest → x ∈ items →
          x.isRawMap = false → (x.tag, "check.ConfigRawMap") ∈ s) := by
      intro refused h0 hk
      obtain ⟨s, hs, h1, h2, h3⟩ := ih cf (t ++ [refused]) r h0
      refine ⟨refused :: s, by simp [hs], ?_, ?_, ?_⟩
      · intro hno
        exact h1 (fun v0 hm => hno v0 (List.mem_cons_of_mem _ hm))
      · intro hno
        exact h2 (fun v0 hm => hno v0 (List.mem_cons_of_mem _ hm))
      · intro items x hm hx hb
        rcases List.mem_cons.mp hm with heq | hm
        · exact absurd (congrArg Prod.fst heq).symm (hk _)
        · exact List.mem_cons_of_mem _ (h3 items x hm hx hb)
    cases k with
    | null => exact skip (by simpa only [mappingStruct] using h) (by intro name; simp)
    | bool b => exact skip (by simpa only [mappingStruct] using h) (by intro name; simp)
    | int i => exact skip (by simpa only [mappingStruct] using h) (by intro name; simp)
    | float f => exact skip (by simpa only [mappingStruct] using h) (by intro name; simp)
    | seq xs => exact skipErr _ (by simpa only [mappingStruct] using h) (by intro name; simp)
    | map xs => exact skipErr _ (by simpa only [mappingStruct] using h) (by intro name; simp)
    | str name =>
      simp only [mappingStruct] at h
      by_cases h1 : name = "init_config"
      · subst h1
        simp only [if_true] at h
        cases hu : unmarshalInitConfig v cf t with
        | none => simp [hu] at h
        | some r1 =>
          have hr1 := unmarshalInitConfig_spec v cf t r1 hu
          subst hr1
          simp only [hu] at h
          obtain ⟨s, hs, _, h2, h3⟩ := ih _ _ r h
          refine ⟨s, hs, ?_, ?_, ?_⟩
          · intro hno
            exact absurd (List.mem_cons_self _ _) (hno v)
          · intro hno
            exact h2 (fun v0 hm => hno v0 (List.mem_cons_of_mem _ hm))
          · intro items x hm hx hb
            rcases List.mem_cons.mp hm with heq | hm
            · have := congrArg Prod.fst heq
              simp at this
            · exact h3 items x hm hx hb
      · simp only [h1, if_false] at h
        by_cases h2 : name = "instances"
        · subst h2
          simp only [if_true] at h
          cases hu : unmarshalInstances v cf t with
          | none => simp [hu] at h
          | some r1 =>
            obtain ⟨s1, hs1, hinit, hitems⟩ := unmarshalInstances_spec v cf t r1 hu
            obtain ⟨cf1, t1⟩ := r1
            simp only [hu] at h
            obtain ⟨s2, hs2, g1, _, g3⟩ := ih _ _ r h
            simp only at hs1 hinit
            refine ⟨s1 ++ s2, by rw [hs2, hs1, List.append_assoc], ?_, ?_, ?_⟩
            · intro hno
              rw [g1 (fun v0 hm => hno v0 (List.mem_cons_of_mem _ hm))]
              exact hinit
            · intro hno
              exact absurd (List.mem_cons_self _ _) (hno v)
            · intro items x hm hx hb
              rcases List.mem_cons.mp hm with heq | hm
              · have hv : v = Value.seq items := (congrArg Prod.snd heq).symm
                exact List.mem_append_left _ ((hitems items hv).2 x hx hb)
              · exact List.mem_append_right _ (g3 items x hm hx hb)
        · simp only [h2, if_false] at h
          obtain ⟨s, hs, g1, g2, g3⟩ := ih cf t r h
          refine ⟨s, hs, ?_, ?_, ?_⟩
          · intro hno
            exact g1 (fun v0 hm => hno v0 (List.mem_cons_of_mem _ hm))
          · intro hno
            exact g2 (fun v0 hm => hno v0 (List.mem_cons_of_mem _ hm))
          · intro items x hm hx hb
            rcases List.mem_cons.mp hm with heq | hm
            · have := congrArg Prod.fst heq
              simp only [Value.str.injEq] at this
              exact absurd this.symm h2
            · exact g3 items x hm hx hb

theorem mappingStruct_append (pre rest : List (Value × Value)) :
    ∀ (cf : configFormat) (t : List Refusal),
      mappingStruct (pre ++ rest) cf t =
        match mappingStruct pre cf t with
        | none => none
        | some r => mappingStruct rest r.1 r.2 := by
  induction pre with
  | nil => intro cf t; simp [mappingStruct]
  | cons kv pre ih =>
    intro cf t
    obtain ⟨k, v⟩ := kv
    cases k with
    | null => rw [List.cons_append]; simp only [mappingStruct]; exact ih _ _
    | bool b => rw [List.cons_append]; simp only [mappingStruct]; exact ih _ _
    | int i => rw [List.cons_append]; simp only [mappingStruct]; exact ih _ _
    | float f => rw [List.cons_append]; simp only [mappingStruct]; exact ih _ _
    | seq xs => rw [List.cons_append]; simp only [mappingStruct]; exact ih _ _
    | map xs => rw [List.cons_append]; simp only [mappingStruct]; exact ih _ _
    | str name =>
      rw [List.cons_append]
      simp only [mappingStruct]
      by_cases h1 : name = "init_config"
      · simp only [h1, if_true]
        cases unmarshalInitConfig v cf t with
        | none => rfl
        | some r1 => obtain ⟨cf1, t1⟩ := r1; exact ih cf1 t1
      · simp only [h1, if_false]
        by_cases h2 : name = "instances"
        · simp only [h2, if_true]
          cases unmarshalInstances v cf t with
          | none => rfl
          | some r1 => obtain ⟨cf1, t1⟩ := r1; exact ih cf1 t1
        · simp only [h2, if_false]
          exact ih _ _

/-- The last binding of `instances` decides the field when the walk ends
without a type error: its entries are nulls and mappings, and each gave one
element, in order. -/
theorem mappingStruct_last_instances (pre post : List (Value × Value)) (items : List Value)
    (cf : configFormat) (t : List Refusal) (r : configFormat × List Refusal)
    (h : mappingStruct (pre ++ (Value.str "instances", Value.seq items) :: post) cf t = some r)
    (hpost : ∀ v, (Value.str "instances", v) ∉ post) (hr : r.2 = []) :
    r.1.Instances = items.map Value.rawMap ∧ ∀ x ∈ items, x.isRawMap = true := by
  rw [mappingStruct_append] at h
  cases h1 : mappingStruct pre cf t with
  | none => simp [h1] at h
  | some r1 =>
    simp only [h1, mappingStruct, if_true, show ¬ ("instances" = "init_config") by decide,
      if_false] at h
    cases h2 : unmarshalInstances (Value.seq items) r1.1 r1.2 with
    | none => simp [h2] at h
    | some r2 =>
      obtain ⟨cf2, t2⟩ := r2
      simp only [h2] at h
      obtain ⟨s2, hs2, _, hitems⟩ := unmarshalInstances_spec _ _ _ _ h2
      obtain ⟨s3, hs3, _, hkeep, _⟩ := mappingStruct_spec post cf2 t2 r h
      simp only at hs2
      have hs2nil : s2 = [] := by
        rw [hr, hs2] at hs3
        have := congrArg List.length hs3
        simp only [List.length_nil, List.length_append] at this
        exact List.eq_nil_of_length_eq_zero (by omega)
      obtain ⟨ha, hb⟩ := (hitems items rfl).1 hs2nil
      exact ⟨by rw [hkeep hpost]; exact ha, hb⟩

/-- A success of `yaml.Unmarshal` on a parsed document is a walk of the
decoder that ends without a type error. -/
theorem yamlUnmarshal_ok (parse : Bytes → Except GoError Value) (texts : DecoderTexts)
    (data : Bytes) (doc : Value) (cf : configFormat)
    (hp : parse data = .ok doc) (hu : yamlUnmarshal parse texts data = .ok cf) :
    unmarshalDocument doc = some (cf, []) := by
  simp only [yamlUnmarshal, hp] at hu
  cases h : unmarshalDocument doc with
  | none => simp [h] at hu
  | some r =>
    obtain ⟨cf1, t1⟩ := r
    cases t1 with
    | nil =>
      simp only [h, Except.ok.injEq] at hu
      rw [hu]
    | cons msg msgs => simp [h] at hu

/-- What `yaml.Unmarshal` returns once the walk of the decoder is known. -/
theorem yamlUnmarshal_of_walk (parse : Bytes → Except GoError Value) (texts : DecoderTexts)
    (data : Bytes) (doc : Value) (hp : parse data = .ok doc) :
    (∀ cf, unmarshalDocument doc = some (cf, []) → yamlUnmarshal parse texts data = .ok cf) ∧
    (∀ cf refused rest, unmarshalDocument doc = some (cf, refused :: rest) →
      yamlUnmarshal parse texts data = .error (GoError.typeError (texts.terrors data))) ∧
    (unmarshalDocument doc = none →
      yamlUnmarshal parse texts data = .error (GoError.yaml (texts.invalidMapKey data))) := by
  refine ⟨?_, ?_, ?_⟩
  · intro cf h; simp [yamlUnmarshal, hp, h]
  · intro cf refused rest h; simp [yamlUnmarshal, hp, h]
  · intro h; simp [yamlUnmarshal, hp, h]

/-! ## Documents the decoder accepts -/

mutual
theorem decodes_of_plainKeys : ∀ v : Value, v.plainKeys = true → v.decodes = true
  | .null, _ => rfl
  | .bool _, _ => rfl
  | .int _, _ => rfl
  | .float _, _ => rfl
  | .str _, _ => rfl
  | .seq items, h => by
    simp only [Value.plainKeys] at h
    simp only [Value.decodes]
    exact decodesAll_of_plainKeys items h
  | .map pairs, h => by
    simp only [Value.plainKeys] at h
    simp only [Value.decodes]
    exact decodesPairs_of_plainKeys pairs h
theorem decodesAll_of_plainKeys :
    ∀ vs : List Value, Value.plainKeysAll vs = true → Value.decodesAll vs = true
  | [], _ => rfl
  | v :: rest, h => by
    simp only [Value.plainKeysAll, Bool.and_eq_true] at h
    simp only [Value.decodesAll, Bool.and_eq_true]
    exact ⟨decodes_of_plainKeys v h.1, decodesAll_of_plainKeys rest h.2⟩
theorem decodesPairs_of_plainKeys :
    ∀ ps : List (Value × Value), Value.plainKeysPairs ps = true → Value.decodesPairs ps = true
  | [], _ => rfl
  | (k, v) :: rest, h => by
    simp only [Value.plainKeysPairs, Bool.and_eq_true] at h
    obtain ⟨⟨hk, hv⟩, hrest⟩ := h
    simp only [Value.decodesPairs, Bool.and_eq_true]
    refine ⟨⟨⟨?_, ?_⟩, decodes_of_plainKeys v hv⟩, decodesPairs_of_plainKeys rest hrest⟩
    · cases k <;> simp_all [Value.decodes]
    · cases k <;> simp_all [Value.isMapKey]
end

/-- In a mapping with plain keys every key is a scalar and every value has
plain keys. -/
theorem plainKeysPairs_mem (ps : List (Value × Value)) (h : Value.plainKeysPairs ps = true)
    (k v : Value) (hm : (k, v) ∈ ps) :
    v.plainKeys = true ∧ (∀ xs, k ≠ Value.seq xs) ∧ (∀ m, k ≠ Value.map m) := by
  induction ps with
  | nil => cases hm
  | cons kv rest ih =>
    obtain ⟨k0, v0⟩ := kv
    simp only [Value.plainKeysPairs, Bool.and_eq_true] at h
    obtain ⟨⟨hk, hv⟩, hrest⟩ := h
    rcases List.mem_cons.mp hm with heq | hm
    · cases heq
      refine ⟨hv, ?_, ?_⟩
      · intro xs e; subst e; simp at hk
      · intro m e; subst e; simp at hk
    · exact ih hrest hm

theorem plainKeysAll_mem (vs : List Value) (h : Value.plainKeysAll vs = true) (x : Value)
    (hm : x ∈ vs) : x.plainKeys = true := by
  induction vs with
  | nil => cases hm
  | cons v rest ih =>
    simp only [Value.plainKeysAll, Bool.and_eq_true] at h
    rcases List.mem_cons.mp hm with heq | hm
    · rw [heq]; exact h.1
    · exact ih h.2 hm

/-- On entries with plain keys the loop over `instances` never stops, and it
records no type error when every entry is a null or a mapping. -/
theorem unmarshalInstances.loop_accepts (items : List Value)
    (hplain : Value.plainKeysAll items = true) :
    ∀ (out : List ConfigRawMap) (t : List Refusal),
      ∃ r, unmarshalInstances.loop items out t = some r ∧
        ((∀ x ∈ items, x.isRawMap = true) → r.2 = t) := by
  induction items with
  | nil => intro out t; exact ⟨(out, t), rfl, fun _ => rfl⟩
  | cons x rest ih =>
    intro out t
    simp only [Value.plainKeysAll, Bool.and_eq_true] at hplain
    unfold unmarshalInstances.loop
    rcases unmarshalRawMap_cases x with ⟨hx, hgood | hfail⟩ | ⟨hx, hterr⟩
    · rw [hgood]
      obtain ⟨r, hr, hfit⟩ := ih hplain.2 (out ++ [x.rawMap]) t
      exact ⟨r, hr, fun hall => hfit (fun y hy => hall y (List.mem_cons_of_mem _ hy))⟩
    · exfalso
      cases x with
      | map pairs =>
        have hd : Value.decodesPairs pairs = true :=
          decodesPairs_of_plainKeys pairs (by simpa only [Value.plainKeys] using hplain.1)
        simp [unmarshalRawMap, hd] at hfail
      | null => simp [unmarshalRawMap] at hfail
      | bool b => simp [unmarshalRawMap] at hfail
      | int i => simp [unmarshalRawMap] at hfail
      | float f => simp [unmarshalRawMap] at hfail
      | str f => simp [unmarshalRawMap] at hfail
      | seq xs => simp [unmarshalRawMap] at hfail
    · rw [hterr]
      obtain ⟨r, hr, _⟩ := ih hplain.2 out (t ++ [(x.tag, "check.ConfigRawMap")])
      refine ⟨r, hr, ?_⟩
      intro hall
      have := hall x (List.mem_cons_self _ _)
      rw [hx] at this
      exact absurd this (by decide)

theorem unmarshalInstances_accepts (v : Value) (hplain : v.plainKeys = true)
    (cf : configFormat) (t : List Refusal) :
    ∃ r, unmarshalInstances v cf t = some r ∧ (instancesFit v → r.2 = t) := by
  cases v with
  | null => exact ⟨_, rfl, fun _ => rfl⟩
  | seq items =>
    obtain ⟨r0, hr0, hfit⟩ := unmarshalInstances.loop_accepts items
      (by simpa only [Value.plainKeys] using hplain) [] t
    obtain ⟨out, t0⟩ := r0
    refine ⟨(⟨cf.InitConfig, out⟩, t0), by simp [unmarshalInstances, hr0], ?_⟩
    intro hv
    rcases hv with h | ⟨its, h, hall⟩
    · cases h
    · cases h
      exact hfit hall
  | bool b =>
    refine ⟨_, rfl, ?_⟩
    rintro (h | ⟨its, h, _⟩) <;> cases h
  | int b =>
    refine ⟨_, rfl, ?_⟩
    rintro (h | ⟨its, h, _⟩) <;> cases h
  | float b =>
    refine ⟨_, rfl, ?_⟩
    rintro (h | ⟨its, h, _⟩) <;> cases h
  | str b =>
    refine ⟨_, rfl, ?_⟩
    rintro (h | ⟨its, h, _⟩) <;> cases h
  | map b =>
    refine ⟨_, rfl, ?_⟩
    rintro (h | ⟨its, h, _⟩) <;> cases h

/-- On a document with plain keys the walk of the decoder never stops, and it
records no type error when every value of `instances` is a null or a sequence
of nulls and mappings. -/
theorem mappingStruct_accepts (pairs : List (Value × Value))
    (hplain : Value.plainKeysPairs pairs = true) :
    ∀ (cf : configFormat) (t : List Refusal),
      ∃ r, mappingStruct pairs cf t = some r ∧
        ((∀ v, (Value.str "instances", v) ∈ pairs → instancesFit v) → r.2 = t) := by
  induction pairs with
  | nil => intro cf t; exact ⟨(cf, t), rfl, fun _ => rfl⟩
  | cons kv rest ih =>
    intro cf t
    obtain ⟨k, v⟩ := kv
    have hhead := plainKeysPairs_mem _ hplain k v (List.mem_cons_self _ _)
    simp only [Value.plainKeysPairs, Bool.and_eq_true] at hplain
    have ih' := ih hplain.2
    have pass : ∀ cf1,
        ∃ r, mappingStruct rest cf1 t = some r ∧
          ((∀ v0, (Value.str "instances", v0) ∈ (k, v) :: rest → instancesFit v0) → r.2 = t) := by
      intro cf1
      obtain ⟨r, hr, hfit⟩ := ih' cf1 t
      exact ⟨r, hr, fun hall => hfit (fun v0 hm => hall v0 (List.mem_cons_of_mem _ hm))⟩
    cases k with
    | null => simpa only [mappingStruct] using pass cf
    | bool b => simpa only [mappingStruct] using pass cf
    | int i => simpa only [mappingStruct] using pass cf
    | float f => simpa only [mappingStruct] using pass cf
    | seq xs => exact absurd rfl (hhead.2.1 xs)
    | map m => exact absurd rfl (hhead.2.2 m)
    | str name =>
      simp only [mappingStruct]
      by_cases h1 : name = "init_config"
      · subst h1
        have hd : v.decodes = true := decodes_of_plainKeys v hhead.1
        simp only [if_true, unmarshalInitConfig, hd]
        exact pass _
      · simp only [h1, if_false]
        by_cases h2 : name = "instances"
        · subst h2
          simp only [if_true]
          obtain ⟨r1, hr1, hfit1⟩ := unmarshalInstances_accepts v hhead.1 cf t
          obtain ⟨cf1, t1⟩ := r1
          simp only [hr1]
          obtain ⟨r, hr, hfit⟩ := ih' cf1 t1
          refine ⟨r, hr, ?_⟩
          intro hall
          have ht1 : t1 = t := hfit1 (hall v (List.mem_cons_self _ _))
          rw [hfit (fun v0 hm => hall v0 (List.mem_cons_of_mem _ hm)), ht1]
        · simp only [h2, if_false]
          exact pass cf

/-- A mapping with a sequence or a mapping among its keys does not decode. -/
theorem decodesPairs_of_bad_key (m : List (Value × Value)) (k v : Value) (hm : (k, v) ∈ m)
    (hk : k.isMapKey = false) : Value.decodesPairs m = false := by
  induction m with
  | nil => cases hm
  | cons kv rest ih =>
    obtain ⟨k0, v0⟩ := kv
    rcases List.mem_cons.mp hm with heq | hm
    · cases heq
      simp [Value.decodesPairs, hk]
    · simp [Value.decodesPairs, ih hm]

/-- The loop over `instances` stops on an entry that does not decode. -/
theorem unmarshalInstances.loop_stops (items : List Value) (m : List (Value × Value))
    (hm : Value.map m ∈ items) (hbad : Value.decodesPairs m = false) :
    ∀ (out : List ConfigRawMap) (t : List Refusal),
      unmarshalInstances.loop items out t = none := by
  induction items with
  | nil => cases hm
  | cons x rest ih =>
    intro out t
    unfold unmarshalInstances.loop
    rcases List.mem_cons.mp hm with heq | hm
    · subst heq
      simp [unmarshalRawMap, hbad]
    · cases unmarshalRawMap x with
      | good e => exact ih hm _ _
      | terror refused => exact ih hm _ _
      | fail => rfl

/-- The walk of the decoder stops when an entry under a key `instances` does
not decode. -/
theorem mappingStruct_stops (pairs : List (Value × Value)) (items : List Value)
    (m : List (Value × Value)) (hp : (Value.str "instances", Value.seq items) ∈ pairs)
    (hm : Value.map m ∈ items) (hbad : Value.decodesPairs m = false) :
    ∀ (cf : configFormat) (t : List Refusal), mappingStruct pairs cf t = none := by
  induction pairs with
  | nil => cases hp
  | cons kv rest ih =>
    intro cf t
    obtain ⟨k, v⟩ := kv
    rcases List.mem_cons.mp hp with heq | hp
    · cases heq
      simp [mappingStruct, unmarshalInstances, unmarshalInstances.loop_stops items m hm hbad]
    · have ih' := ih hp
      cases k with
      | null => simp only [mappingStruct]; exact ih' _ _
      | bool b => simp only [mappingStruct]; exact ih' _ _
      | int i => simp only [mappingStruct]; exact ih' _ _
      | float f => simp only [mappingStruct]; exact ih' _ _
      | seq xs => simp only [mappingStruct]; exact ih' _ _
      | map xs => simp only [mappingStruct]; exact ih' _ _
      | str name =>
        simp only [mappingStruct]
        by_cases h1 : name = "init_config"
        · simp only [h1, if_true]
          cases unmarshalInitConfig v cf t with
          | none => rfl
          | some r1 => obtain ⟨cf1, t1⟩ := r1; exact ih' cf1 t1
        · simp only [h1, if_false]
          by_cases h2 : name = "instances"
          · simp only [h2, if_true]
            cases unmarshalInstances v cf t with
            | none => rfl
            | some r1 => obtain ⟨cf1, t1⟩ := r1; exact ih' cf1 t1
          · simp only [h2, if_false]
            exact ih' _ _

/-! ## The claims on the parser -/

/-- C7: when `getCheckConfig(name, path)` succeeds on a file that decodes to a
document with `init_config` value `v` and instances `i_1 … i_n`, the config
has `Name = name`, `InitConfig = encode(v)` and
`Instances = [encode(i_1), …, encode(i_n)]`: as many blobs as instances, in
the order of the source, each instance encoded on its own.  A document that
is a mapping without the key `init_config` gives `encode(null)`. -/
theorem getCheckConfig_reencodes (w : World) (name fpath : String) (data : Bytes)
    (cf : configFormat) (conf : check.Config)
    (hr : w.ReadFile fpath = .ok data) (hu : w.Unmarshal data = .ok cf)
    (hok : getCheckConfig w name fpath = .ok conf) :
    conf.Name = name ∧
    conf.InitConfig = w.Marshal cf.InitConfig ∧
    conf.Instances = cf.Instances.map (fun inst => w.Marshal (Value.map inst)) ∧
    conf.Instances.length = cf.Instances.length ∧
    (∀ parse texts pairs, w.Unmarshal = yamlUnmarshal parse texts →
      parse data = .ok (Value.map pairs) →
      (∀ v, (Value.str "init_config", v) ∉ pairs) → conf.InitConfig = w.Marshal Value.null) := by
  obtain ⟨data0, cf0, hr0, hu0, _, hc⟩ := getCheckConfig_ok_inv w name fpath conf hok
  have hd : data0 = data := Except.ok.inj (hr0.symm.trans hr)
  subst hd
  have hcf : cf0 = cf := Except.ok.inj (hu0.symm.trans hu)
  subst hcf
  subst hc
  refine ⟨rfl, rfl, rfl, by simp, ?_⟩
  intro parse texts pairs hw hp hno
  rw [hw] at hu
  have hm : mappingStruct pairs configFormat.zero [] = some (cf0, []) :=
    yamlUnmarshal_ok parse texts _ _ cf0 hp hu
  obtain ⟨_, _, hinit, _, _⟩ := mappingStruct_spec pairs _ _ _ hm
  have : cf0.InitConfig = Value.null := hinit hno
  show w.Marshal cf0.InitConfig = w.Marshal Value.null
  rw [this]

/-- C7, an instance: the file `/opt/dd/cpu.yaml` of the sample world has no
`init_config` and one instance. -/
theorem getCheckConfig_reencodes_witness :
    getCheckConfig sampleWorld "cpu" "/opt/dd/cpu.yaml"
        = .ok ⟨"cpu", ["host: h2\n"], "null\n"⟩ ∧
    (⟨"cpu", ["host: h2\n"], "null\n"⟩ : check.Config).Instances
        = [sampleWorld.Marshal (Value.map [(Value.str "host", Value.str "h2")])] ∧
    (⟨"cpu", ["host: h2\n"], "null\n"⟩ : check.Config).InitConfig
        = sampleWorld.Marshal Value.null :=
  have h := getCheckConfig_reencodes sampleWorld "cpu" "/opt/dd/cpu.yaml" sampleFileB
    ⟨Value.null, [[(Value.str "host", Value.str "h2")]]⟩ ⟨"cpu", ["host: h2\n"], "null\n"⟩
    rfl rfl rfl
  ⟨rfl, h.2.2.1, h.2.2.2.2 sampleParse sampleTexts _ rfl rfl (by simp)⟩

/-- C8: on a file that is read and decoded without error, `getCheckConfig`
fails exactly when the decoded `instances` has length zero, which is also
what a document without the key `instances` decodes to, and the error then
reads "Configuration file contains no valid instances"; such a file, at the
top of a root or inside an override directory, adds nothing to the output. -/
theorem getCheckConfig_fails_iff_no_instances (w : World) (name fpath : String) (data : Bytes)
    (cf : configFormat) (hr : w.ReadFile fpath = .ok data) (hu : w.Unmarshal data = .ok cf) :
    ((∃ err, getCheckConfig w name fpath = .error err) ↔ cf.Instances.length = 0) ∧
    (∀ err, getCheckConfig w name fpath = .error err →
      err = GoError.errorString "Configuration file contains no valid instances" ∧
      err.Error = "Configuration file contains no valid instances") ∧
    (cf.Instances.length = 0 →
      (∀ R E rest configs, w.Join R E = fpath →
        Collect.entries w R (⟨E, false⟩ :: rest) configs = Collect.entries w R rest configs) ∧
      (∀ dirPath checkName S rest configs, w.Join dirPath S = fpath →
        collectDir.loop w dirPath checkName (⟨S, false⟩ :: rest) configs
          = collectDir.loop w dirPath checkName rest configs)) ∧
    (∀ parse texts pairs, w.Unmarshal = yamlUnmarshal parse texts →
      parse data = .ok (Value.map pairs) →
      (∀ v, (Value.str "instances", v) ∉ pairs) → cf.Instances.length = 0) ∧
    (∀ parse texts, w.Unmarshal = yamlUnmarshal parse texts →
      parse data = .ok (Value.map [(Value.str "instances", Value.seq [])]) →
      cf.Instances.length = 0) := by
  have hg : ∀ n, getCheckConfig w n fpath =
      if cf.Instances.length < 1 then
        .error (GoError.errorString "Configuration file contains no valid instances")
      else .ok ⟨n, cf.Instances.map (fun inst => w.Marshal (Value.map inst)),
        w.Marshal cf.InitConfig⟩ :=
    fun n => getCheckConfig_of_decoded w n fpath data cf hr hu
  refine ⟨?_, ?_, ?_, ?_, ?_⟩
  · rw [hg]
    by_cases hlen : cf.Instances.length < 1
    · simp only [hlen, if_true]
      exact ⟨fun _ => by omega, fun _ => ⟨_, rfl⟩⟩
    · simp only [hlen, if_false]
      constructor
      · rintro ⟨err, h⟩; cases h
      · intro h0; omega
  · intro err h
    rw [hg] at h
    by_cases hlen : cf.Instances.length < 1
    · simp only [hlen, if_true, Except.error.injEq] at h
      subst h
      exact ⟨rfl, rfl⟩
    · simp only [hlen, if_false] at h
      cases h
  · intro h0
    have hlen : cf.Instances.length < 1 := by omega
    refine ⟨?_, ?_⟩
    · intro R E rest configs hj
      simp only [Collect.entries_eq, List.flatMap_cons, Option.some.injEq,
        List.append_cancel_left_eq, List.append_left_eq_self]
      unfold entryConfigs
      by_cases hig : ignoredAtTop ⟨E, false⟩ = true
      · simp [hig]
      · simp [hig, hj, hg, hlen, parsed]
    · intro dirPath checkName S rest configs hj
      simp [collectDir_loop_eq, hj, hg, hlen, Except.toOption]
  · intro parse texts pairs hw hp hno
    rw [hw] at hu
    have hm : mappingStruct pairs configFormat.zero [] = some (cf, []) :=
      yamlUnmarshal_ok parse texts data _ cf hp hu
    obtain ⟨_, _, _, hinst, _⟩ := mappingStruct_spec pairs _ _ _ hm
    have : cf.Instances = [] := hinst hno
    simp [this]
  · intro parse texts hw hp
    rw [hw] at hu
    have hm := yamlUnmarshal_ok parse texts data _ cf hp hu
    have : cf = ⟨Value.null, []⟩ := (Prod.mk.inj (Option.some.inj hm)).1.symm
    simp [this]

/-- C8, an instance: the file `/etc/dd/empty.yaml` of the sample world holds
`instances: []` and is refused with the message of the code. -/
theorem getCheckConfig_fails_iff_no_instances_witness :
    sampleWorld.ReadFile "/etc/dd/empty.yaml" = .ok "instances: []" ∧
    ∃ err, getCheckConfig sampleWorld "empty" "/etc/dd/empty.yaml" = .error err ∧
      err.Error = "Configuration file contains no valid instances" :=
  have h := getCheckConfig_fails_iff_no_instances sampleWorld "empty" "/etc/dd/empty.yaml"
    "instances: []" ⟨Value.null, []⟩ rfl rfl
  have hex := h.1.mpr rfl
  ⟨rfl, hex.elim fun err herr => ⟨err, herr, (h.2.1 err herr).2⟩⟩

/-- C9, as stated, fails: in the sample world the root `/srv/dd` holds the
file `a.yaml.yaml` and the override directory `x.d.d`; the extension stripped
from the file is `.yaml` and the config is named `a.yaml`, which ends in
`.yaml`; the config of the directory is named `x.d`, which ends in `.d`. -/
theorem Name_may_end_in_the_stripped_suffix :
    sampleWorld.ReadDir "/srv/dd" = .ok [⟨"a.yaml.yaml", false⟩, ⟨"x.d.d", true⟩] ∧
    (NewFileConfigProvider ["/srv/dd"]).Collect sampleWorld
      = some ([⟨"a.yaml", ["host: h1\n"], "null\n"⟩, ⟨"x.d", ["host: h2\n"], "null\n"⟩], none) ∧
    Ext sampleWorld.windows "a.yaml.yaml" = ".yaml" ∧ hasSuffix "a.yaml" ".yaml" = true ∧
    Ext sampleWorld.windows "x.d.d" = ".d" ∧ hasSuffix "x.d" ".d" = true :=
  ⟨rfl, by decide, by decide, by decide, by decide, by decide⟩

/-- C9, amended: every config `Collect` emits bears the name of a top-level
entry of one of the roots with one trailing suffix taken off: `Name` followed
by the final extension of the entry, for a file, or by `.d`, for an override
directory, is the name of the entry. -/
theorem Name_is_entry_name_minus_suffix (w : World) (c : FileConfigProvider) :
    ∃ configs, c.Collect w = some (configs, none) ∧
      ∀ conf ∈ configs, ∃ R ∈ c.paths, ∃ es, w.ReadDir R = .ok es ∧ ∃ e ∈ es,
        (e.IsDir = false ∧ conf.Name ++ Ext w.windows e.Name = e.Name) ∨
        (e.IsDir = true ∧ Ext w.windows e.Name = ".d" ∧ conf.Name ++ ".d" = e.Name) := by
  refine ⟨_, Collect_eq w c, ?_⟩
  intro conf hconf
  simp only [List.mem_flatMap] at hconf
  obtain ⟨R, hR, hmem⟩ := hconf
  obtain ⟨es, hes, e, he, h⟩ := mem_rootConfigs w R conf hmem
  refine ⟨R, hR, es, hes, e, he, ?_⟩
  rcases h with ⟨hd, hname, _⟩ | ⟨hd, hname, _⟩
  · exact Or.inl ⟨hd, hname⟩
  · refine Or.inr ⟨hd, ?_, hname⟩
    rw [← hname]
    exact (Ext_eq_d_iff w.windows _).mpr (hasSuffix_append_self conf.Name ".d")

/-- C10, as stated, fails: the file `/etc/dd/five.yaml` of the sample world
is readable and is the valid document `instances: [5]`; its one instance is
an integer, which does not decode into a `check.ConfigRawMap`, and
`getCheckConfig` returns the type error of the decoder. -/
theorem scalar_instance_is_rejected :
    sampleWorld.ReadFile "/etc/dd/five.yaml" = .ok "instances: [5]" ∧
    sampleParse "instances: [5]"
      = .ok (Value.map [(Value.str "instances", Value.seq [Value.int 5])]) ∧
    unmarshalDocument (Value.map [(Value.str "instances", Value.seq [Value.int 5])])
      = some (configFormat.zero, [("!!int", "check.ConfigRawMap")]) ∧
    ∃ errors, getCheckConfig sampleWorld "five" "/etc/dd/five.yaml"
      = .error (GoError.typeError errors) :=
  ⟨rfl, rfl, rfl, _, rfl⟩

/-- C10, amended: on a readable file whose document is a mapping,
(1) if the keys of the document are plain (every key of every mapping a
scalar, none the merge key), every value of `instances` is a null or a
sequence of nulls and mappings, and the last one is a non-empty sequence,
then the decoder accepts the document and `getCheckConfig` succeeds with one
re-encoded blob per entry of that sequence, in order;
(2) if the decoder accepts the document, the entries of the last `instances`
sequence are nulls and mappings and each gives the blob of its bindings;
(3) if under a key `instances` there is an entry that is neither a null nor a
mapping, `getCheckConfig` fails with the error of the decoder: its type
error, in which that entry is recorded against `check.ConfigRawMap`, when the
keys are plain, and that or the error on an invalid map key otherwise;
(4) a mapping entry with a sequence or a mapping as a key stops the decoder
on an invalid map key. -/
theorem getCheckConfig_instances_are_mappings (w : World)
    (parse : Bytes → Except GoError Value) (texts : DecoderTexts) (name fpath : String)
    (data : Bytes) (pairs : List (Value × Value))
    (hw : w.Unmarshal = yamlUnmarshal parse texts) (hr : w.ReadFile fpath = .ok data)
    (hp : parse data = .ok (Value.map pairs)) :
    (∀ pre items post,
      pairs = pre ++ (Value.str "instances", Value.seq items) :: post →
      (∀ v, (Value.str "instances", v) ∉ post) →
      (Value.map pairs).plainKeys = true →
      (∀ v, (Value.str "instances", v) ∈ pairs → instancesFit v) →
      items ≠ [] →
      ∃ cf, w.Unmarshal data = .ok cf ∧ cf.Instances.length = items.length ∧
        getCheckConfig w name fpath
          = .ok ⟨name, cf.Instances.map (fun inst => w.Marshal (Value.map inst)),
              w.Marshal cf.InitConfig⟩) ∧
    (∀ pre items post cf,
      pairs = pre ++ (Value.str "instances", Value.seq items) :: post →
      (∀ v, (Value.str "instances", v) ∉ post) → items ≠ [] →
      w.Unmarshal data = .ok cf →
      (∀ x ∈ items, x.isRawMap = true) ∧
      getCheckConfig w name fpath
        = .ok ⟨name, items.map (fun x => w.Marshal (Value.map x.rawMap)),
            w.Marshal cf.InitConfig⟩) ∧
    (∀ items x, (Value.str "instances", Value.seq items) ∈ pairs → x ∈ items →
      x.isRawMap = false →
      (∃ err, w.Unmarshal data = .error err ∧ getCheckConfig w name fpath = .error err ∧
        (err = GoError.typeError (texts.terrors data) ∨
          err = GoError.yaml (texts.invalidMapKey data))) ∧
      ((Value.map pairs).plainKeys = true →
        getCheckConfig w name fpath = .error (GoError.typeError (texts.terrors data)) ∧
        ∃ cf refused, unmarshalDocument (Value.map pairs) = some (cf, refused) ∧
          (x.tag, "check.ConfigRawMap") ∈ refused)) ∧
    (∀ items m k v, (Value.str "instances", Value.seq items) ∈ pairs → Value.map m ∈ items →
      (k, v) ∈ m → k.isMapKey = false →
      getCheckConfig w name fpath = .error (GoError.yaml (texts.invalidMapKey data))) := by
  have hget : ∀ err, w.Unmarshal data = .error err → getCheckConfig w name fpath = .error err :=
    fun err hu => by simp [getCheckConfig, hr, hu]
  have hwalk := yamlUnmarshal_of_walk parse texts data _ hp
  rw [← hw] at hwalk
  refine ⟨?_, ?_, ?_, ?_⟩
  · intro pre items post hpairs hpost hplain hfit hne
    obtain ⟨r, hr0, hclean⟩ := mappingStruct_accepts pairs
      (by simpa only [Value.plainKeys] using hplain) configFormat.zero []
    obtain ⟨cf, t⟩ := r
    have ht : t = [] := hclean hfit
    subst ht
    have hu : w.Unmarshal data = .ok cf := hwalk.1 cf hr0
    have hm := hr0
    rw [hpairs] at hm
    obtain ⟨hinst, _⟩ := mappingStruct_last_instances pre post items _ _ _ hm hpost rfl
    simp only at hinst
    have hlen : cf.Instances.length = items.length := by rw [hinst, List.length_map]
    refine ⟨cf, hu, hlen, ?_⟩
    rw [getCheckConfig_of_decoded w name fpath data cf hr hu]
    have hpos := List.length_pos.mpr hne
    rw [if_neg (by omega)]
  · intro pre items post cf hpairs hpost hne hu
    have hu' := hu
    rw [hw] at hu'
    have hm : mappingStruct pairs configFormat.zero [] = some (cf, []) :=
      yamlUnmarshal_ok parse texts data _ cf hp hu'
    rw [hpairs] at hm
    obtain ⟨hinst, hall⟩ := mappingStruct_last_instances pre post items _ _ _ hm hpost rfl
    simp only at hinst
    refine ⟨hall, ?_⟩
    rw [getCheckConfig_of_decoded w name fpath data cf hr hu]
    have hlen : ¬ cf.Instances.length < 1 := by
      rw [hinst, List.length_map]
      have := List.length_pos.mpr hne
      omega
    rw [if_neg hlen, hinst, List.map_map]
    rfl
  · intro items x hmem hx hbad
    have key : ∀ r, mappingStruct pairs configFormat.zero [] = some r →
        (x.tag, "check.ConfigRawMap") ∈ r.2 := by
      intro r h0
      obtain ⟨s, hs, _, _, hrec⟩ := mappingStruct_spec pairs _ _ _ h0
      rw [hs]
      exact List.mem_append_right _ (hrec items x hmem hx hbad)
    refine ⟨?_, ?_⟩
    · cases h0 : mappingStruct pairs configFormat.zero [] with
      | none =>
        have hu := hwalk.2.2 h0
        exact ⟨_, hu, hget _ hu, Or.inr rfl⟩
      | some r =>
        obtain ⟨cf, t⟩ := r
        have hin := key _ h0
        cases t with
        | nil => cases hin
        | cons refused rest =>
          have hu := hwalk.2.1 cf refused rest h0
          exact ⟨_, hu, hget _ hu, Or.inl rfl⟩
    · intro hplain
      obtain ⟨r, h0, _⟩ := mappingStruct_accepts pairs
        (by simpa only [Value.plainKeys] using hplain) configFormat.zero []
      obtain ⟨cf, t⟩ := r
      have hin := key _ h0
      cases t with
      | nil => cases hin
      | cons refused rest =>
        exact ⟨hget _ (hwalk.2.1 cf refused rest h0), cf, refused :: rest, h0, hin⟩
  · intro items m k v hmem hm hk hbad
    have hstop := mappingStruct_stops pairs items m hmem hm
      (decodesPairs_of_bad_key m k v hk hbad) configFormat.zero []
    exact hget _ (hwalk.2.2 hstop)

/-- C10 amended, an instance: the file `/var/dd/redis.yaml` of the sample
world has plain keys and two instances, a mapping of two keys and a null; the
decoder accepts it and `getCheckConfig` gives two blobs. -/
theorem getCheckConfig_instances_are_mappings_witness :
    sampleWorld.ReadFile "/var/dd/redis.yaml" = .ok sampleFileC ∧
    ∃ cf, sampleWorld.Unmarshal sampleFileC = .ok cf ∧ cf.Instances.length = 2 ∧
      getCheckConfig sampleWorld "redis" "/var/dd/redis.yaml"
        = .ok ⟨"redis", cf.Instances.map (fun inst => sampleWorld.Marshal (Value.map inst)),
            sampleWorld.Marshal cf.InitConfig⟩ ∧
      getCheckConfig sampleWorld "redis" "/var/dd/redis.yaml"
        = .ok ⟨"redis", ["host: h3\nname: r1\n", "\x7b\x7d\n"], "tag: t1\n"⟩ :=
  have h := (getCheckConfig_instances_are_mappings sampleWorld sampleParse sampleTexts "redis"
      "/var/dd/redis.yaml" sampleFileC _ rfl rfl rfl).1
    [(Value.str "init_config", Value.map [(Value.str "tag", Value.str "t1")])]
    [Value.map [(Value.str "host", Value.str "h3"), (Value.str "name", Value.str "r1")],
      Value.null]
    [] rfl (by simp) (by decide)
    (by
      intro v hv
      simp only [List.mem_cons, Prod.mk.injEq, List.mem_singleton, List.not_mem_nil,
        or_false] at hv
      rcases hv with ⟨h1, _⟩ | ⟨_, h2⟩
      · exact absurd h1 (by simp)
      · right
        refine ⟨_, h2, ?_⟩
        intro x hx
        simp only [List.mem_cons, List.mem_singleton, List.not_mem_nil, or_false] at hx
        rcases hx with rfl | rfl <;> rfl)
    (by simp)
  ⟨rfl, h.elim fun cf hcf => ⟨cf, hcf.1, hcf.2.1, hcf.2.2, rfl⟩⟩

/-- C6, an instance: in the sample world the roots `/etc/dd` and `/opt/dd`
each hold a valid `cpu.yaml`, and both configs named `cpu` are in the output,
that of `/etc/dd` first. -/
theorem Collect_append_witness :
    (NewFileConfigProvider (["/etc/dd"] ++ ["/opt/dd"])).Collect sampleWorld
      = some ([⟨"cpu", ["host: h1\n"], "null\n"⟩, ⟨"nginx", ["host: h1\n"], "null\n"⟩,
          ⟨"nginx", ["host: h2\n"], "null\n"⟩] ++ [⟨"cpu", ["host: h2\n"], "null\n"⟩], none) := by
  obtain ⟨ca, cb, ha, hb, hab⟩ := (Collect_append sampleWorld ["/etc/dd"] ["/opt/dd"]).1
  have ha' : (NewFileConfigProvider ["/etc/dd"]).Collect sampleWorld
      = some ([⟨"cpu", ["host: h1\n"], "null\n"⟩, ⟨"nginx", ["host: h1\n"], "null\n"⟩,
          ⟨"nginx", ["host: h2\n"], "null\n"⟩], none) := by decide
  have hb' : (NewFileConfigProvider ["/opt/dd"]).Collect sampleWorld
      = some ([⟨"cpu", ["host: h2\n"], "null\n"⟩], none) := by decide
  rw [ha'] at ha
  rw [hb'] at hb
  have e1 := (Prod.mk.inj (Option.some.inj ha)).1
  have e2 := (Prod.mk.inj (Option.some.inj hb)).1
  rw [hab, ← e1, ← e2]

end loader
